import Mathlib

/-!
Verification of the `@basketry/typescript-docs` generator against its
specification. The development shallowly embeds the two components of the
repository — the closure resolver (`src/interface-info.ts`) and the document
renderer (`src/readme-factory.ts`) — as executable Lean functions over the
basketry intermediate representation (IR), and proves the specified
properties about them.

Modelling conventions:
* IR literal wrappers (`name.value`, `typeName.value`, …) are collapsed to
  plain `String`s.
* JavaScript `Map`s are modelled as insertion-ordered association lists
  (`alookup` / `aset` mirror `Map.get` / `Map.set`).
* The recursive generator `InterfaceInfo.traverse` is embedded as a
  fuel-indexed state transformer `traverseD`; the fuel is an artifact of the
  embedding and `traverseD_fuel_congr` below proves that any fuel of at least
  `bound svc` computes the same (fuel-independent) result, which is the
  formal content of the visited-set termination argument.
* The TypeScript source threads one object holding six maps and a
  `mode : input | output` selector; every map access selects the triple of
  maps belonging to `mode`, so the embedding passes that triple (`DirMaps`)
  explicitly. The interleaved per-method input/output traversals of `init`
  commute into two independent folds because a traversal of one direction
  never reads or writes the other direction's maps.
* External collaborators (the `basketry` lookups, the `case` casing
  functions, `@basketry/typescript`'s name factory, the provenance banner)
  are modelled at their interface boundary as pure functions.
* Rule parameter values and descriptions arrive as already-extracted
  strings, following §6 of the specification.
-/

/-- Association-list lookup; model of JavaScript `Map.get`. -/
def alookup {α : Type} : List (String × α) → String → Option α
  | [], _ => none
  | (k', v) :: rest, k => if k' = k then some v else alookup rest k

/-- Association-list insert/update; model of JavaScript `Map.set` (updates in
place when the key exists, appends otherwise, preserving insertion order). -/
def aset {α : Type} : List (String × α) → String → α → List (String × α)
  | [], k, v => [(k, v)]
  | (k', v') :: rest, k, v =>
      if k' = k then (k', v) :: rest else (k', v') :: aset rest k v

/-- Keys of an association list, in insertion order. -/
def akeys {α : Type} (l : List (String × α)) : List String := l.map Prod.fst

/-! ## IR data model (§3 of the spec, from the `basketry` 0.1.x IR) -/

/-- A type reference: the shared shape of `Parameter`, `Property`,
`ReturnType` and `TypedValue` that `buildLinkedTypeName` consumes — a
referenced name, a primitive tag, and an is-array flag. -/
structure TypedValue where
  typeName : String
  isPrimitive : Bool
  isArray : Bool
deriving DecidableEq, Repr

/-- Validation rules: a closed tagged variant (§3). The carried parameter
values are the already-extracted scalars, kept as strings (§6). `otherRule`
stands for any rule id outside the renderer's fixed table. -/
inductive ValidationRule where
  | arrayMaxItems (max : String)
  | arrayMinItems (min : String)
  | arrayUniqueItems
  | numberGT (value : String)
  | numberGTE (value : String)
  | numberLT (value : String)
  | numberLTE (value : String)
  | numberMultipleOf (value : String)
  | stringMaxLength (length : String)
  | stringMinLength (length : String)
  | stringPattern (pattern : String)
  | otherRule (id : String)
deriving DecidableEq, Repr

/-- A method parameter. The required flag models `basketry`'s `isRequired`
at its boundary; descriptions are paragraph lists (the source accepts a
string or an array of strings — a single string is a one-element list). -/
structure Parameter where
  name : String
  typeName : String
  isPrimitive : Bool
  isArray : Bool
  required : Bool
  rules : List ValidationRule
  description : List String
deriving DecidableEq, Repr

/-- A property of a type; same shape as `Parameter`. -/
structure Property where
  name : String
  typeName : String
  isPrimitive : Bool
  isArray : Bool
  required : Bool
  rules : List ValidationRule
  description : List String
deriving DecidableEq, Repr

/-- The map-properties facet of a dictionary-shaped type. -/
structure MapProps where
  key : TypedValue
  value : TypedValue
deriving DecidableEq, Repr

/-- A named service type. -/
structure Typ where
  name : String
  properties : List Property
  mapProperties : Option MapProps
  description : List String
deriving DecidableEq, Repr

/-- A union: a name and the ordered member type references. -/
structure UnionT where
  name : String
  members : List TypedValue
deriving DecidableEq, Repr

/-- An enum: a leaf entity. The generic `meta` side-channel of the source
(`codegen-enum-description` / `codegen-enum-value-descriptions`) is modelled
as typed optional documentation fields, as §9 of the spec prescribes for a
reimplementation; absence means no description. -/
structure Enum where
  name : String
  values : List String
  description : Option String
  valueDescriptions : List (String × String)
deriving DecidableEq, Repr

/-- A method: name, ordered parameters, optional return type, description. -/
structure Method where
  name : String
  parameters : List Parameter
  returnType : Option TypedValue
  description : List String
deriving DecidableEq, Repr

/-- An interface: a name and its ordered methods. -/
structure Interface where
  name : String
  methods : List Method
  description : List String
deriving DecidableEq, Repr

/-- The root service container. -/
structure Service where
  interfaces : List Interface
  types : List Typ
  enums : List Enum
  unions : List UnionT
deriving DecidableEq, Repr

/-- View of a parameter as the type reference it carries. -/
def Parameter.typedValue (p : Parameter) : TypedValue :=
  ⟨p.typeName, p.isPrimitive, p.isArray⟩

/-- View of a property as the type reference it carries. -/
def Property.typedValue (p : Property) : TypedValue :=
  ⟨p.typeName, p.isPrimitive, p.isArray⟩

/-! ## External `basketry` helpers (boundary models) -/

/-- Model of `basketry`'s `getTypeByName`: first type with the given name. -/
def getTypeByName (svc : Service) (n : String) : Option Typ :=
  svc.types.find? (fun t => t.name == n)

/-- Model of `basketry`'s `getEnumByName`. -/
def getEnumByName (svc : Service) (n : String) : Option Enum :=
  svc.enums.find? (fun e => e.name == n)

/-- Model of `basketry`'s `getUnionByName`. -/
def getUnionByName (svc : Service) (n : String) : Option UnionT :=
  svc.unions.find? (fun u => u.name == n)

/-- Model of `basketry`'s `isRequired` on a parameter. -/
def Parameter.isRequired (p : Parameter) : Bool := p.required

/-- Model of `basketry`'s `isRequired` on a property. -/
def Property.isRequired (p : Property) : Bool := p.required

/-! ## External casing utilities (boundary models of the `case` package and
`@basketry/typescript`'s name factory; §1 places their conventions out of
scope, so they are modelled as the direct string transformations they are) -/

/-- Word-splitting of the `case` package: words are maximal runs of
alphanumeric characters, additionally split where a lowercase letter or
digit is followed by an uppercase letter. -/
def splitWordsGo : List Char → List Char → List String
  | [], cur => if cur = [] then [] else [String.mk cur.reverse]
  | c :: cs, cur =>
      if c.isAlphanum then
        if c.isUpper && (match cur with | p :: _ => p.isLower || p.isDigit | [] => false) then
          String.mk cur.reverse :: splitWordsGo cs [c]
        else
          splitWordsGo cs (c :: cur)
      else
        (if cur = [] then [] else [String.mk cur.reverse]) ++ splitWordsGo cs []

/-- Split a string into case words. -/
def splitWords (s : String) : List String := splitWordsGo s.data []

/-- Uppercase the first character of a word, lowercase the rest. -/
def capitalizeWord (w : String) : String :=
  match w.data with
  | [] => ""
  | c :: cs => String.mk (c.toUpper :: cs.map Char.toLower)

/-- Lowercase every character of a word. -/
def lowerWord (w : String) : String := String.mk (w.data.map Char.toLower)

/-- Concatenate a list of strings. -/
def strConcat (l : List String) : String := String.mk (l.flatMap String.data)

/-- Model of `case`'s `pascal`. -/
def pascal (s : String) : String := strConcat ((splitWords s).map capitalizeWord)

/-- Model of `case`'s `camel`. -/
def camel (s : String) : String :=
  match splitWords s with
  | [] => ""
  | w :: ws => lowerWord w ++ strConcat (ws.map capitalizeWord)

/-- Join a list of strings with a separator; model of `Array.prototype.join`. -/
def joinSep (sep : String) : List String → String
  | [] => ""
  | [x] => x
  | x :: y :: xs => x ++ sep ++ joinSep sep (y :: xs)

/-- Model of `case`'s `title`: capitalized words joined by single spaces. -/
def title (s : String) : String := joinSep " " ((splitWords s).map capitalizeWord)

/-- Model of `@basketry/typescript`'s `buildInterfaceName`. -/
def buildInterfaceName (int : Interface) : String := pascal int.name ++ "Service"

/-- Model of `@basketry/typescript`'s `buildMethodName`. -/
def buildMethodName (m : Method) : String := camel m.name

/-- Model of `@basketry/typescript`'s `buildParameterName`. -/
def buildParameterName (p : Parameter) : String := camel p.name

/-- Model of `@basketry/typescript`'s `buildPropertyName`. -/
def buildPropertyName (p : Property) : String := camel p.name

/-- Model of the primitive-kind → TypeScript display name mapping inside
`@basketry/typescript`'s `buildTypeName`. -/
def primitiveTsName : String → String
  | "string" => "string"
  | "number" => "number"
  | "integer" => "number"
  | "long" => "number"
  | "float" => "number"
  | "double" => "number"
  | "boolean" => "boolean"
  | "date" => "Date"
  | "date-time" => "Date"
  | "null" => "null"
  | "untyped" => "any"
  | s => s

/-- Model of `@basketry/typescript`'s `buildTypeName` on a type reference:
the display name (TypeScript primitive name or pascal-cased local name),
with an array suffix when the reference is an array. -/
def buildTypeNameExt (t : TypedValue) : String :=
  let base := if t.isPrimitive then primitiveTsName t.typeName else pascal t.typeName
  if t.isArray then base ++ "[]" else base

/-! ## Closure resolver (`src/interface-info.ts`) -/

/-- The three visited maps of one directional tag (`input` or `output`):
`_inputTypes`/`_inputUnions`/`_inputEnums`, or the `output` triple. -/
structure DirMaps where
  types : List (String × Typ)
  unions : List (String × UnionT)
  enums : List (String × Enum)
deriving DecidableEq, Repr

/-- The empty visited state. -/
def DirMaps.empty : DirMaps := ⟨[], [], []⟩

/-- The visited check of `traverse` (its six early returns, restricted to
one direction): the name is in the direction's type, union or enum map. -/
def visitedIn (d : DirMaps) (n : String) : Bool :=
  (alookup d.types n).isSome || (alookup d.unions n).isSome
    || (alookup d.enums n).isSome

/-- Fuel-indexed embedding of `InterfaceInfo.traverse` for one directional
tag. Mirrors the source: early-return when visited; resolve the name against
types, then unions, then enums (the `if (type) … else if (union) … else if
(e)` chain); record the entity and recurse into non-primitive properties
(types) or all members (unions); enums are leaves; a dangling name adds
nothing. The yielded values of the source generator are discarded by `init`,
so only the state effect is embedded. -/
def traverseD (svc : Service) : Nat → String → DirMaps → DirMaps
  | 0, _, d => d
  | fuel + 1, typeName, d =>
      if visitedIn d typeName then d
      else
        match getTypeByName svc typeName with
        | some type =>
            let d1 : DirMaps := { d with types := aset d.types typeName type }
            type.properties.foldl
              (fun acc prop =>
                if prop.isPrimitive then acc
                else traverseD svc fuel prop.typeName acc)
              d1
        | none =>
            match getUnionByName svc typeName with
            | some union =>
                let d1 : DirMaps := { d with unions := aset d.unions typeName union }
                union.members.foldl
                  (fun acc m => traverseD svc fuel m.typeName acc) d1
            | none =>
                match getEnumByName svc typeName with
                | some e => { d with enums := aset d.enums typeName e }
                | none => d

/-- All entity names of the service (the key sets of its three maps). -/
def allEntityNames (svc : Service) : List String :=
  svc.types.map Typ.name ++ svc.unions.map UnionT.name ++ svc.enums.map Enum.name

/-- A fuel budget sufficient for any traversal over `svc` (strictly more
than the number of distinct entity names). -/
def bound (svc : Service) : Nat := (allEntityNames svc).dedup.length + 1

/-- One top-level `traverse` call, with sufficient fuel. -/
def traverseTop (svc : Service) (n : String) (d : DirMaps) : DirMaps :=
  traverseD svc (bound svc) n d

/-- The input half of `InterfaceInfo.init`: for every method, every
parameter's type name is traversed with the `input` tag (the source applies
no primitive check to parameters). -/
def inputClosure (svc : Service) (int : Interface) : DirMaps :=
  int.methods.foldl
    (fun d m => m.parameters.foldl (fun d' p => traverseTop svc p.typeName d') d)
    DirMaps.empty

/-- The output half of `InterfaceInfo.init`: each method's return type is
traversed with the `output` tag when present and not primitive. -/
def outputClosure (svc : Service) (int : Interface) : DirMaps :=
  int.methods.foldl
    (fun d m =>
      match m.returnType with
      | some rt => if rt.isPrimitive then d else traverseTop svc rt.typeName d
      | none => d)
    DirMaps.empty

/-- The state of a fully initialized `InterfaceInfo`. -/
structure InterfaceInfo where
  input : DirMaps
  output : DirMaps
deriving DecidableEq, Repr

/-- Constructing an `InterfaceInfo` runs `init`. -/
def interfaceInfoOf (svc : Service) (int : Interface) : InterfaceInfo :=
  ⟨inputClosure svc int, outputClosure svc int⟩

/-- Lexicographic comparison of character lists by code point. -/
def listLeB : List Char → List Char → Bool
  | [], _ => true
  | _ :: _, [] => false
  | a :: as, b :: bs =>
      if a.toNat < b.toNat then true
      else if b.toNat < a.toNat then false
      else listLeB as bs

/-- Lexicographic string comparison by code point: the model of
`a.localeCompare(b) <= 0` on the ASCII identifiers the IR carries — the
spec's "simple lexicographic string comparison". -/
def strLeB (a b : String) : Bool := listLeB a.data b.data

/-- Sort a list of strings ascending (model of `.sort((a, b) =>
a.localeCompare(b))`). -/
def sortStrings (l : List String) : List String :=
  List.insertionSort (fun a b : String => strLeB a b = true) l

/-- Sort types by name (model of `.sort((a, b) =>
a.name.value.localeCompare(b.name.value))`). -/
def sortTypsByName (l : List Typ) : List Typ :=
  List.insertionSort (fun a b : Typ => strLeB a.name b.name = true) l

/-- Sort unions by name. -/
def sortUnionsByName (l : List UnionT) : List UnionT :=
  List.insertionSort (fun a b : UnionT => strLeB a.name b.name = true) l

/-- Sort enums by name. -/
def sortEnumsByName (l : List Enum) : List Enum :=
  List.insertionSort (fun a b : Enum => strLeB a.name b.name = true) l

/-- Sort methods by name. -/
def sortMethodsByName (l : List Method) : List Method :=
  List.insertionSort (fun a b : Method => strLeB a.name b.name = true) l

/-- Merged name set of the two directional maps: `new Set([...input.keys(),
...output.keys()])`, then sorted. Order of deduplication is irrelevant after
the sort because distinct strings never tie. -/
def mergedNames {α : Type} (inMap outMap : List (String × α)) : List String :=
  sortStrings ((akeys inMap ++ akeys outMap).dedup)

/-- Merged lookup: `input.get(name) ?? output.get(name)!`. The non-null
assertion of the source is modelled by `filterMap`; every merged name has an
entry in one of the two maps, so nothing is dropped. -/
def mergedView {α : Type} (inMap outMap : List (String × α)) : List α :=
  (mergedNames inMap outMap).filterMap
    (fun n =>
      match alookup inMap n with
      | some v => some v
      | none => alookup outMap n)

/-- The `types` getter of `InterfaceInfo`. -/
def InterfaceInfo.typesList (info : InterfaceInfo) : List Typ :=
  mergedView info.input.types info.output.types

/-- The `inputTypes` getter. -/
def InterfaceInfo.inputTypes (info : InterfaceInfo) : List Typ :=
  sortTypsByName (info.input.types.map Prod.snd)

/-- The `outputTypes` getter. -/
def InterfaceInfo.outputTypes (info : InterfaceInfo) : List Typ :=
  sortTypsByName (info.output.types.map Prod.snd)

/-- The `unions` getter. -/
def InterfaceInfo.unionsList (info : InterfaceInfo) : List UnionT :=
  mergedView info.input.unions info.output.unions

/-- The `inputUnions` getter. -/
def InterfaceInfo.inputUnions (info : InterfaceInfo) : List UnionT :=
  sortUnionsByName (info.input.unions.map Prod.snd)

/-- The `outputUnions` getter. -/
def InterfaceInfo.outputUnions (info : InterfaceInfo) : List UnionT :=
  sortUnionsByName (info.output.unions.map Prod.snd)

/-- The `enums` getter. -/
def InterfaceInfo.enumsList (info : InterfaceInfo) : List Enum :=
  mergedView info.input.enums info.output.enums

/-! ## Document renderer (`src/readme-factory.ts`) -/

/-- Lowercase a string character-wise (`toLocaleLowerCase` on the ASCII
identifiers the IR carries). -/
def lowerString (s : String) : String := String.mk (s.data.map Char.toLower)

/-- Split a string on a separator character; model of
`String.prototype.split` with a single-character separator (in particular
the empty string splits to one empty field). -/
def splitOnCharGo (sep : Char) : List Char → List Char → List String
  | [], cur => [String.mk cur.reverse]
  | c :: cs, cur =>
      if c = sep then String.mk cur.reverse :: splitOnCharGo sep cs []
      else splitOnCharGo sep cs (c :: cur)

/-- Split a string on a separator character. -/
def splitOnChar (sep : Char) (s : String) : List String :=
  splitOnCharGo sep s.data []

/-- The `anchor` helper: lowercase, spaces to hyphens, `#`-prefixed. -/
def anchor (name : String) : String :=
  "#" ++ joinSep "-" (splitOnChar ' ' (lowerString name))

/-- Whether a string ends with the two characters `[]` (char-level model of
`endsWith('[]')`, which the kernel can evaluate). -/
def endsWithArraySuffix (s : String) : Bool :=
  match s.data.reverse with
  | ']' :: '[' :: _ => true
  | _ => false

/-- The local `Builder.buildTypeName` with `skipArrayify = true` (its only
call site): the external display name with a trailing array suffix
stripped (`substring(0, length - 2)`). -/
def buildTypeNameStripped (t : TypedValue) : String :=
  let fullyQualifiedName := buildTypeNameExt t
  if endsWithArraySuffix fullyQualifiedName then
    String.mk (fullyQualifiedName.data.take (fullyQualifiedName.data.length - 2))
  else fullyQualifiedName

/-- The external reference URL for a primitive kind, when one exists
(the `switch` of `buildLinkedTypeName`). -/
def primitiveUri : String → Option String
  | "string" =>
      some "https://developer.mozilla.org/en-US/docs/Web/JavaScript/Data_structures#string_type"
  | "number" =>
      some "https://developer.mozilla.org/en-US/docs/Web/JavaScript/Data_structures#number_type"
  | "integer" =>
      some "https://developer.mozilla.org/en-US/docs/Web/JavaScript/Data_structures#number_type"
  | "long" =>
      some "https://developer.mozilla.org/en-US/docs/Web/JavaScript/Data_structures#number_type"
  | "float" =>
      some "https://developer.mozilla.org/en-US/docs/Web/JavaScript/Data_structures#number_type"
  | "double" =>
      some "https://developer.mozilla.org/en-US/docs/Web/JavaScript/Data_structures#number_type"
  | "boolean" =>
      some "https://developer.mozilla.org/en-US/docs/Web/JavaScript/Data_structures#boolean_type"
  | "date" =>
      some "https://developer.mozilla.org/en-US/docs/Web/JavaScript/Reference/Global_Objects/Date"
  | "date-time" =>
      some "https://developer.mozilla.org/en-US/docs/Web/JavaScript/Reference/Global_Objects/Date"
  | "null" =>
      some "https://developer.mozilla.org/en-US/docs/Web/JavaScript/Data_structures#null_type"
  | _ => none

/-- Fuel-indexed embedding of `Builder.buildLinkedTypeName`. The source
recurses through union members without a visited set; the fuel (one more
than the number of unions, enough for any acyclic union nesting) is the
embedding's termination artifact. -/
def buildLinkedTypeName (svc : Service) : Nat → TypedValue → String
  | 0, _ => ""
  | fuel + 1, param =>
      match getUnionByName svc param.typeName with
      | some union =>
          let members :=
            joinSep " | " (union.members.map (buildLinkedTypeName svc fuel))
          if param.isArray then "(" ++ members ++ ")[]" else members
      | none =>
          let typeName := buildTypeNameStripped param
          if param.isPrimitive then
            match primitiveUri param.typeName with
            | some uri =>
                "[&lt;" ++ typeName ++ (if param.isArray then "[]" else "")
                  ++ "&gt;](" ++ uri ++ ")"
            | none =>
                "&lt;" ++ typeName ++ (if param.isArray then "[]" else "") ++ "&gt;"
          else
            "[&lt;" ++ typeName ++ (if param.isArray then "[]" else "")
              ++ "&gt;](" ++ anchor typeName ++ ")"

/-- `buildLinkedTypeName` at its standing fuel budget. -/
def linkedTypeName (svc : Service) (t : TypedValue) : String :=
  buildLinkedTypeName svc (svc.unions.length + 1) t

/-- `sortParameters`: a sorted copy of the parameter list. -/
def sortParameters (parameters : List Parameter) : List Parameter :=
  List.insertionSort (fun a b : Parameter => strLeB a.name b.name = true) parameters

/-- Whether some parameter is required (`method.parameters.find(isRequired)`
coerced to a boolean). -/
def hasRequiredParams (m : Method) : Bool := m.parameters.any Parameter.isRequired

/-- `Builder.buildMethodDefinition`: the one-line call signature. -/
def buildMethodDefinition (m : Method) : String :=
  let parameters :=
    if m.parameters.isEmpty then ""
    else
      "(\x7b"
        ++ joinSep ", "
          ((sortParameters m.parameters).map
            (fun param =>
              buildParameterName param ++ (if param.isRequired then "" else "?")))
        ++ "\x7d"
        ++ (if hasRequiredParams m then "" else " | undefined")
        ++ ")"
  buildMethodName m ++ parameters

/-- `Builder.buildRules`: the validation-rule bullet lines, in declared
order; unrecognized rule ids produce nothing. -/
def buildRules : List ValidationRule → List String
  | [] => []
  | rule :: rest =>
      (match rule with
        | .arrayMaxItems max => ["  - Max array length: `" ++ max ++ "`"]
        | .arrayMinItems min => ["  - Min array length: `" ++ min ++ "`"]
        | .arrayUniqueItems => ["  - Values must be unique"]
        | .numberGT value => ["  - Must be greater than `" ++ value ++ "`"]
        | .numberGTE value =>
            ["  - Must be greater than or equal to `" ++ value ++ "`"]
        | .numberLT value => ["  - Must be less than `" ++ value ++ "`"]
        | .numberLTE value =>
            ["  - Must be less than or equal to `" ++ value ++ "`"]
        | .numberMultipleOf value => ["  - Must be a multiple of `" ++ value ++ "`"]
        | .stringMaxLength length => ["  - Max length: `" ++ length ++ "`"]
        | .stringMinLength length => ["  - Min length: `" ++ length ++ "`"]
        | .stringPattern pattern => ["  - Must match pattern: `" ++ pattern ++ "`"]
        | .otherRule _ => [])
        ++ buildRules rest

/-- `Builder.buildParameterDescription` (shared with properties). -/
def buildParameterDescriptionOf (description : List String) : String :=
  if description.isEmpty then "" else " - " ++ joinSep " " description

/-- `Builder.buildParameter`: the parameter bullet and its rule bullets. -/
def buildParameter (svc : Service) (param : Parameter) : List String :=
  ("- `" ++ buildParameterName param ++ "` " ++ linkedTypeName svc param.typedValue
      ++ (if param.isRequired then "" else " (optional)")
      ++ buildParameterDescriptionOf param.description)
    :: buildRules param.rules

/-- `Builder.buildProperty`: the property bullet and its rule bullets. -/
def buildProperty (svc : Service) (prop : Property) : List String :=
  ("- `" ++ buildPropertyName prop ++ "` " ++ linkedTypeName svc prop.typedValue
      ++ (if prop.isRequired then "" else " (optional)")
      ++ buildParameterDescriptionOf prop.description)
    :: buildRules prop.rules

/-- `Builder.buildMethodDocs`: one method section. -/
def buildMethodDocs (svc : Service) (m : Method) : List String :=
  ["### " ++ buildMethodName m, "", "`" ++ buildMethodDefinition m ++ "`"]
    ++ (if m.parameters.isEmpty then []
        else "" :: (sortParameters m.parameters).flatMap (buildParameter svc))
    ++ (match m.returnType with
        | some rt =>
            ["",
              "Returns: " ++ linkedTypeName svc rt
                ++ (if rt.isArray then "[]" else "")]
        | none => [])
    ++ m.description.flatMap (fun line => ["", line])
    ++ [""]

/-- `Builder.buildTypeDocs`: one type section; properties render in their
declared order. -/
def buildTypeDocs (svc : Service) (t : Typ) : List String :=
  ["### " ++ pascal t.name, "", "`" ++ pascal t.name ++ "`"]
    ++ t.description.flatMap (fun line => ["", line])
    ++ (if t.properties.isEmpty then []
        else "" :: t.properties.flatMap (buildProperty svc))
    ++ (match t.mapProperties with
        | some mp =>
            ["", "#### Map Properties", "",
              "- Keys: " ++ linkedTypeName svc mp.key,
              "- Values: " ++ linkedTypeName svc mp.value]
        | none => [])
    ++ [""]

/-- `Builder.buildEnumDocs`: one enum section. -/
def buildEnumDocs (e : Enum) : List String :=
  ["### " ++ pascal e.name, "", "`" ++ pascal e.name ++ "`"]
    ++ (match e.description with
        | some d => ["", d]
        | none => [])
    ++ (if e.values.isEmpty then []
        else
          "" :: e.values.map
            (fun v =>
              "- `" ++ v ++ "`"
                ++ (match alookup e.valueDescriptions v with
                    | some d => " - " ++ d
                    | none => "")))
    ++ [""]

/-- `Builder.methods`: the interface's methods sorted by name. -/
def builderMethods (int : Interface) : List Method :=
  sortMethodsByName int.methods

/-- `Builder.types`: a fresh `InterfaceInfo`'s merged types, re-sorted by
name. -/
def builderTypes (svc : Service) (int : Interface) : List Typ :=
  sortTypsByName (interfaceInfoOf svc int).typesList

/-- `Builder.enums`: a fresh `InterfaceInfo`'s merged enums, re-sorted by
name. -/
def builderEnums (svc : Service) (int : Interface) : List Enum :=
  sortEnumsByName (interfaceInfoOf svc int).enumsList

/-- `Builder.buildToc`: the table of contents. -/
def buildToc (svc : Service) (int : Interface) : List String :=
  let methods := builderMethods int
  let types := builderTypes svc int
  let enums := builderEnums svc int
  (if methods.isEmpty then []
    else
      "- Methods"
        :: methods.map
          (fun m =>
            "  - [" ++ buildMethodName m ++ "](" ++ anchor (buildMethodName m) ++ ")"))
    ++ (if types.isEmpty then []
        else
          "- Types"
            :: types.map
              (fun t => "  - [" ++ pascal t.name ++ "](" ++ anchor t.name ++ ")"))
    ++ (if enums.isEmpty then []
        else
          "- Enums"
            :: enums.map
              (fun e => "  - [" ++ pascal e.name ++ "](" ++ anchor e.name ++ ")"))

/-- `Builder.buildInterfaceDescription`. -/
def buildInterfaceDescription (int : Interface) : List String :=
  int.description.flatMap (fun para => [para, ""])

/-- Modelled from the spec: the external provenance-banner collaborator
(§6) contributes an opaque block of lines as a pure function of the service,
package descriptor and configuration; its content is out of scope and is
modelled as the empty block. -/
def warningExt (_svc : Service) : List String := []

/-- `Builder.warning`: the comment-fenced banner block. -/
def warningBlock (svc : Service) : List String :=
  ["<!--"] ++ warningExt svc ++ ["--->"]

/-- `Builder.buildInterfaceDocs`: the full document for one interface, as
its ordered list of lines. -/
def buildInterfaceDocs (svc : Service) (int : Interface) : List String :=
  let methods := builderMethods int
  let types := builderTypes svc int
  let enums := builderEnums svc int
  warningBlock svc
    ++ [""]
    ++ ["# " ++ title (buildInterfaceName int)]
    ++ [""]
    ++ buildInterfaceDescription int
    ++ buildToc svc int
    ++ [""]
    ++ (if methods.isEmpty then []
        else "## Methods" :: "" :: methods.flatMap (buildMethodDocs svc))
    ++ (if types.isEmpty then []
        else "## Types" :: "" :: types.flatMap (buildTypeDocs svc))
    ++ (if enums.isEmpty then []
        else "## Enums" :: "" :: enums.flatMap buildEnumDocs)

/-- `Builder.build` / `generateDocs`: one document per interface of the
service (the output path policy is external, §6). -/
def generateDocs (svc : Service) : List (List String) :=
  svc.interfaces.map (buildInterfaceDocs svc)

/-! ## Concrete fixtures (the spec's §8 scenarios and decision inputs) -/

/-- Type `Node` with a property `next` of type `Node` (spec §8, cycle
safety). -/
def nodeTyp : Typ := ⟨"Node", [⟨"next", "Node", false, false, false, [], []⟩], none, []⟩

/-- A method whose parameter is of type `Node`. -/
def nodeMethod : Method := ⟨"getNode", [⟨"node", "Node", false, false, true, [], []⟩], none, []⟩

/-- The interface of the cycle-safety scenario. -/
def nodeInterface : Interface := ⟨"nodes", [nodeMethod], []⟩

/-- The service of the cycle-safety scenario. -/
def nodeService : Service := ⟨[nodeInterface], [nodeTyp], [], []⟩

/-- `Widget` (spec §8, directional partitioning). -/
def widgetTyp : Typ := ⟨"Widget", [⟨"size", "number", true, false, true, [], []⟩], none, []⟩

/-- `WidgetReceipt`, sharing no substructure with `Widget`. -/
def widgetReceiptTyp : Typ := ⟨"WidgetReceipt", [⟨"id", "string", true, false, true, [], []⟩], none, []⟩

/-- `create(input: Widget): WidgetReceipt`. -/
def createMethod : Method :=
  ⟨"create", [⟨"input", "Widget", false, false, true, [], []⟩],
    some ⟨"WidgetReceipt", false, false⟩, []⟩

/-- The interface of the directional-partitioning scenario. -/
def widgetInterface : Interface := ⟨"widgets", [createMethod], []⟩

/-- The service of the directional-partitioning scenario. -/
def widgetService : Service := ⟨[widgetInterface], [widgetTyp, widgetReceiptTyp], [], []⟩

/-- An enum named `x`. -/
def xEnum : Enum := ⟨"x", ["a"], none, []⟩

/-- A union also named `x`, with a primitive member. -/
def xUnion : UnionT := ⟨"x", [⟨"string", true, false⟩]⟩

/-- A service in which the name `x` is present in both the enum and the
union maps (and in no type), deciding the enum/union resolution priority. -/
def collideService : Service := ⟨[], [], [xEnum], [xUnion]⟩

/-- A type whose raw IR name contains a space. -/
def fooBarTyp : Typ := ⟨"foo bar", [], none, []⟩

/-- A method reaching `foo bar` from a parameter. -/
def fooBarMethod : Method := ⟨"get", [⟨"it", "foo bar", false, false, true, [], []⟩], none, []⟩

/-- The interface of the anchor-consistency counterexample. -/
def fooBarInterface : Interface := ⟨"fb", [fooBarMethod], []⟩

/-- The service of the anchor-consistency counterexample. -/
def fooBarService : Service := ⟨[fooBarInterface], [fooBarTyp], [], []⟩

/-- Type `cat`. -/
def catTyp : Typ := ⟨"cat", [], none, []⟩

/-- Type `dog`. -/
def dogTyp : Typ := ⟨"dog", [], none, []⟩

/-- The union `pet = cat | dog` (spec §8, union flattening). -/
def petUnion : UnionT := ⟨"pet", [⟨"cat", false, false⟩, ⟨"dog", false, false⟩]⟩

/-- The service of the union-flattening scenario. -/
def petService : Service := ⟨[], [catTyp, dogTyp], [], [petUnion]⟩

/-- A non-array reference to the `pet` union. -/
def petParam : TypedValue := ⟨"pet", false, false⟩

/-- An array reference to the `pet` union. -/
def petArrayParam : TypedValue := ⟨"pet", false, true⟩

/-- A method whose parameter's type name resolves to nothing. -/
def ghostMethod : Method := ⟨"haunt", [⟨"g", "ghost", false, false, true, [], []⟩], none, []⟩

/-- The interface of the dangling-reference scenario. -/
def ghostInterface : Interface := ⟨"spooky", [ghostMethod], []⟩

/-- A service with no types, enums, or unions at all: every reference
dangles. -/
def ghostService : Service := ⟨[ghostInterface], [], [], []⟩

/-- A method with an empty parameter list. -/
def noParamsMethod : Method := ⟨"ping", [], none, []⟩

/-- A method with one optional parameter. -/
def optParamMethod : Method := ⟨"list", [⟨"limit", "number", true, false, false, [], []⟩], none, []⟩

/-! ## Proof apparatus: measures, invariants and reachability -/

/-- Whether a name resolves to some entity of the service. -/
def resolves (svc : Service) (n : String) : Bool :=
  (getTypeByName svc n).isSome || (getUnionByName svc n).isSome
    || (getEnumByName svc n).isSome

/-- The number of service entity names not yet visited: the termination
measure of the traversal. -/
def unvisitedCount (svc : Service) (d : DirMaps) : Nat :=
  ((allEntityNames svc).dedup.filter (fun n => !(visitedIn d n))).length

/-- The names the traversal recurses into from a resolved name, following
the resolution priority of `traverse`: the non-primitive property references
of a type, the member references of a union (when the name is not a type),
nothing otherwise. -/
def childNames (svc : Service) (n : String) : List String :=
  match getTypeByName svc n with
  | some t => ((t.properties.filter (fun p => !p.isPrimitive)).map Property.typeName)
  | none =>
      match getUnionByName svc n with
      | some u => u.members.map TypedValue.typeName
      | none => []

/-- Reachability along traversal edges, from a root reference name. -/
inductive Reach (svc : Service) : String → String → Prop
  | refl (n : String) : Reach svc n n
  | step {a b c : String} : Reach svc a b → c ∈ childNames svc b → Reach svc a c

/-- The root reference names traversed with the `input` tag: every
parameter of every method. -/
def inputRoots (int : Interface) : List String :=
  int.methods.flatMap (fun m => m.parameters.map Parameter.typeName)

/-- The root reference names traversed with the `output` tag: every
non-primitive method return type. -/
def outputRoots (int : Interface) : List String :=
  int.methods.filterMap
    (fun m =>
      match m.returnType with
      | some rt => if rt.isPrimitive then none else some rt.typeName
      | none => none)

/-- Reachable from some input root. -/
def ReachableFromInput (svc : Service) (int : Interface) (n : String) : Prop :=
  ∃ r ∈ inputRoots int, Reach svc r n

/-- Reachable from some output root. -/
def ReachableFromOutput (svc : Service) (int : Interface) (n : String) : Prop :=
  ∃ r ∈ outputRoots int, Reach svc r n

/-- All names visited in a direction's maps. -/
def visitedNames (d : DirMaps) : List String :=
  akeys d.types ++ akeys d.unions ++ akeys d.enums

/-- Key sets of the three maps are duplicate-free. -/
def NodupKeys (d : DirMaps) : Prop :=
  (akeys d.types).Nodup ∧ (akeys d.unions).Nodup ∧ (akeys d.enums).Nodup

/-- Every map entry is stored under the key that resolves to it, in the
category the resolution priority assigns: types beat unions beat enums. -/
def CatOK (svc : Service) (d : DirMaps) : Prop :=
  (∀ kv ∈ d.types, kv.2.name = kv.1 ∧ getTypeByName svc kv.1 = some kv.2)
    ∧ (∀ kv ∈ d.unions,
        kv.2.name = kv.1 ∧ getTypeByName svc kv.1 = none
          ∧ getUnionByName svc kv.1 = some kv.2)
    ∧ (∀ kv ∈ d.enums,
        kv.2.name = kv.1 ∧ getTypeByName svc kv.1 = none
          ∧ getUnionByName svc kv.1 = none ∧ getEnumByName svc kv.1 = some kv.2)

/-- A visited name's resolvable children are all visited: the closure
property of a finished traversal state. -/
def ChildrenDone (svc : Service) (d : DirMaps) (m : String) : Prop :=
  ∀ c ∈ childNames svc m, resolves svc c = true → visitedIn d c = true

/-- Every visited name has its resolvable children visited. -/
def ClosedState (svc : Service) (d : DirMaps) : Prop :=
  ∀ m, visitedIn d m = true → ChildrenDone svc d m

/-- The lowercase ASCII letters and digits: names made only of these are
unchanged by pascal-casing up to the first letter's case. -/
def lowerAlnumChars : List Char :=
  ['a', 'b', 'c', 'd', 'e', 'f', 'g', 'h', 'i', 'j', 'k', 'l', 'm',
   'n', 'o', 'p', 'q', 'r', 's', 't', 'u', 'v', 'w', 'x', 'y', 'z',
   '0', '1', '2', '3', '4', '5', '6', '7', '8', '9']

/-- The closure produced by traversing a list of root names in order from
the empty state. -/
def closureOf (svc : Service) (roots : List String) : DirMaps :=
  roots.foldl (fun d n => traverseTop svc n d) DirMaps.empty

/-! ## Generic list lemmas -/

/-- A property preserved by each fold step is preserved by the fold. -/
theorem foldl_preserve {α β : Type} {P : α → Prop} {f : α → β → α}
    (hstep : ∀ a b, P a → P (f a b)) :
    ∀ (l : List β) (a : α), P a → P (l.foldl f a)
  | [], _, ha => ha
  | b :: l, a, ha => foldl_preserve hstep l (f a b) (hstep a b ha)

/-- Filtering by a pointwise-smaller predicate keeps no more elements. -/
theorem length_filter_mono {α : Type} (l : List α) (p q : α → Bool)
    (h : ∀ a ∈ l, p a = true → q a = true) :
    (l.filter p).length ≤ (l.filter q).length := by
  induction l with
  | nil => simp
  | cons x xs ih =>
      have ih' := ih (fun a ha hpa => h a (List.mem_cons_of_mem _ ha) hpa)
      by_cases hp : p x = true
      · rw [List.filter_cons_of_pos hp,
          List.filter_cons_of_pos (h x (List.mem_cons_self _ _) hp)]
        simpa using ih'
      · rw [List.filter_cons_of_neg (by simpa using hp)]
        cases hq : q x
        · rw [List.filter_cons_of_neg (by simp [hq])]
          exact ih'
        · rw [List.filter_cons_of_pos hq]
          exact Nat.le_succ_of_le ih'

/-- Filtering by a pointwise-smaller predicate that misses a kept element
keeps strictly fewer elements. -/
theorem length_filter_lt {α : Type} (l : List α) (p q : α → Bool) (x : α)
    (h : ∀ a ∈ l, p a = true → q a = true) (hx : x ∈ l)
    (hqx : q x = true) (hpx : p x = false) :
    (l.filter p).length < (l.filter q).length := by
  induction l with
  | nil => cases hx
  | cons y ys ih =>
      have h' : ∀ a ∈ ys, p a = true → q a = true :=
        fun a ha hpa => h a (List.mem_cons_of_mem _ ha) hpa
      rcases List.mem_cons.mp hx with rfl | hmem
      · rw [List.filter_cons_of_neg (by simp [hpx]), List.filter_cons_of_pos hqx]
        exact Nat.lt_succ_of_le (length_filter_mono ys p q h')
      · by_cases hp : p y = true
        · rw [List.filter_cons_of_pos hp,
            List.filter_cons_of_pos (h y (List.mem_cons_self _ _) hp)]
          simpa using ih h' hmem
        · rw [List.filter_cons_of_neg (by simpa using hp)]
          cases hq : q y
          · rw [List.filter_cons_of_neg (by simp [hq])]
            exact ih h' hmem
          · rw [List.filter_cons_of_pos hq]
            exact Nat.lt_succ_of_lt (ih h' hmem)

/-! ## Association-list lemmas -/

/-- Looking up the key just set yields the value just set. -/
theorem alookup_aset_self {α : Type} (l : List (String × α)) (k : String) (v : α) :
    alookup (aset l k v) k = some v := by
  induction l with
  | nil => simp [aset, alookup]
  | cons kv rest ih =>
      obtain ⟨k', v'⟩ := kv
      by_cases h : k' = k
      · simp [aset, alookup, h]
      · simp [aset, alookup, h, ih]

/-- Setting one key leaves every other key's lookup unchanged. -/
theorem alookup_aset_ne {α : Type} (l : List (String × α)) (k k' : String) (v : α)
    (h : k' ≠ k) : alookup (aset l k v) k' = alookup l k' := by
  induction l with
  | nil =>
      simp only [aset, alookup]
      rw [if_neg (fun hh : k = k' => h hh.symm)]
  | cons kv rest ih =>
      obtain ⟨k₀, v₀⟩ := kv
      by_cases h0 : k₀ = k
      · subst h0
        simp only [aset, if_pos rfl, alookup]
        rw [if_neg (fun hh : k₀ = k' => h hh.symm),
          if_neg (fun hh : k₀ = k' => h hh.symm)]
      · simp only [aset, if_neg h0, alookup]
        by_cases h0' : k₀ = k'
        · rw [if_pos h0', if_pos h0']
        · rw [if_neg h0', if_neg h0', ih]

/-- A lookup succeeds exactly when the key is present. -/
theorem alookup_isSome_iff_mem_akeys {α : Type} (l : List (String × α)) (k : String) :
    (alookup l k).isSome = true ↔ k ∈ akeys l := by
  induction l with
  | nil => simp [alookup, akeys]
  | cons kv rest ih =>
      obtain ⟨k₀, v₀⟩ := kv
      by_cases h : k₀ = k
      · simp [alookup, akeys, h]
      · simp [alookup, akeys, h, ih, Ne.symm h]

/-- A lookup fails exactly when the key is absent. -/
theorem alookup_eq_none_iff_not_mem_akeys {α : Type} (l : List (String × α)) (k : String) :
    alookup l k = none ↔ k ∉ akeys l := by
  rw [← alookup_isSome_iff_mem_akeys]
  cases alookup l k <;> simp

/-- Setting an absent key appends it to the key list. -/
theorem akeys_aset_of_not_mem {α : Type} (l : List (String × α)) (k : String) (v : α)
    (h : k ∉ akeys l) : akeys (aset l k v) = akeys l ++ [k] := by
  induction l with
  | nil => simp [aset, akeys]
  | cons kv rest ih =>
      obtain ⟨k₀, v₀⟩ := kv
      have hk : ¬(k₀ = k) := fun hh => h (by simp [akeys, hh])
      have hrest : k ∉ akeys rest := fun hh =>
        h (by simp only [akeys, List.map_cons]; exact List.mem_cons_of_mem _ hh)
      simp only [aset, if_neg hk, akeys, List.map_cons, List.cons_append]
      have := ih hrest
      simp only [akeys] at this
      rw [this]

/-- Setting an absent key appends its value to the value list. -/
theorem values_aset_of_not_mem {α : Type} (l : List (String × α)) (k : String) (v : α)
    (h : k ∉ akeys l) : (aset l k v).map Prod.snd = l.map Prod.snd ++ [v] := by
  induction l with
  | nil => simp [aset]
  | cons kv rest ih =>
      obtain ⟨k₀, v₀⟩ := kv
      have hk : ¬(k₀ = k) := fun hh => h (by simp [akeys, hh])
      have hrest : k ∉ akeys rest := fun hh =>
        h (by simp only [akeys, List.map_cons]; exact List.mem_cons_of_mem _ hh)
      simp only [aset, if_neg hk, List.map_cons, List.cons_append]
      rw [ih hrest]

/-- Entries of a set are the old entries plus the new pair (absent key). -/
theorem mem_aset_of_not_mem {α : Type} (l : List (String × α)) (k : String) (v : α)
    (h : k ∉ akeys l) :
    ∀ kv, kv ∈ aset l k v ↔ kv ∈ l ∨ kv = (k, v) := by
  intro kv
  induction l with
  | nil => simp [aset]
  | cons kv₀ rest ih =>
      obtain ⟨k₀, v₀⟩ := kv₀
      have hk : ¬(k₀ = k) := fun hh => h (by simp [akeys, hh])
      have hrest : k ∉ akeys rest := fun hh =>
        h (by simp only [akeys, List.map_cons]; exact List.mem_cons_of_mem _ hh)
      simp [aset, hk, ih hrest]
      tauto

/-! ## Traversal lemmas -/

/-- Setting any key keeps every present key's lookup a success. -/
theorem isSome_alookup_aset {α : Type} (l : List (String × α)) (k : String) (v : α)
    (m : String) (h : (alookup l m).isSome = true) :
    (alookup (aset l k v) m).isSome = true := by
  by_cases hm : m = k
  · subst hm
    rw [alookup_aset_self]
    rfl
  · rw [alookup_aset_ne _ _ _ _ hm]
    exact h

/-- Recording a type keeps every visited name visited. -/
theorem visitedIn_setTypes_mono (d : DirMaps) (n : String) (t : Typ) (m : String)
    (h : visitedIn d m = true) :
    visitedIn { d with types := aset d.types n t } m = true := by
  unfold visitedIn at h ⊢
  rcases Bool.or_eq_true_iff.mp h with h' | h3
  · rcases Bool.or_eq_true_iff.mp h' with h1 | h2
    · exact Bool.or_eq_true_iff.mpr (Or.inl (Bool.or_eq_true_iff.mpr
        (Or.inl (isSome_alookup_aset _ _ _ _ h1))))
    · exact Bool.or_eq_true_iff.mpr (Or.inl (Bool.or_eq_true_iff.mpr (Or.inr h2)))
  · exact Bool.or_eq_true_iff.mpr (Or.inr h3)

/-- Recording a union keeps every visited name visited. -/
theorem visitedIn_setUnions_mono (d : DirMaps) (n : String) (u : UnionT) (m : String)
    (h : visitedIn d m = true) :
    visitedIn { d with unions := aset d.unions n u } m = true := by
  unfold visitedIn at h ⊢
  rcases Bool.or_eq_true_iff.mp h with h' | h3
  · rcases Bool.or_eq_true_iff.mp h' with h1 | h2
    · exact Bool.or_eq_true_iff.mpr (Or.inl (Bool.or_eq_true_iff.mpr (Or.inl h1)))
    · exact Bool.or_eq_true_iff.mpr (Or.inl (Bool.or_eq_true_iff.mpr
        (Or.inr (isSome_alookup_aset _ _ _ _ h2))))
  · exact Bool.or_eq_true_iff.mpr (Or.inr h3)

/-- Recording an enum keeps every visited name visited. -/
theorem visitedIn_setEnums_mono (d : DirMaps) (n : String) (e : Enum) (m : String)
    (h : visitedIn d m = true) :
    visitedIn { d with enums := aset d.enums n e } m = true := by
  unfold visitedIn at h ⊢
  rcases Bool.or_eq_true_iff.mp h with h' | h3
  · exact Bool.or_eq_true_iff.mpr (Or.inl h')
  · exact Bool.or_eq_true_iff.mpr (Or.inr (isSome_alookup_aset _ _ _ _ h3))

/-- A traversal never touches the entries of an already-visited key. -/
theorem lookup_frozen (svc : Service) :
    ∀ (fuel : Nat) (n : String) (d : DirMaps) (k : String),
      visitedIn d k = true →
      alookup (traverseD svc fuel n d).types k = alookup d.types k
        ∧ alookup (traverseD svc fuel n d).unions k = alookup d.unions k
        ∧ alookup (traverseD svc fuel n d).enums k = alookup d.enums k := by
  intro fuel
  induction fuel with
  | zero => exact fun n d k _ => ⟨rfl, rfl, rfl⟩
  | succ fuel ih =>
      intro n d k hk
      simp only [traverseD]
      by_cases hv : visitedIn d n = true
      · rw [if_pos hv]
        exact ⟨rfl, rfl, rfl⟩
      · rw [if_neg hv]
        have hkn : k ≠ n := fun hh => hv (hh ▸ hk)
        cases hty : getTypeByName svc n with
        | some t =>
            have hbase :
                alookup (aset d.types n t) k = alookup d.types k :=
              alookup_aset_ne _ _ _ _ hkn
            refine foldl_preserve (P := fun (acc : DirMaps) =>
              alookup acc.types k = alookup d.types k
                ∧ alookup acc.unions k = alookup d.unions k
                ∧ alookup acc.enums k = alookup d.enums k) ?_ _ _ ⟨hbase, rfl, rfl⟩
            intro acc p hP
            by_cases hp : p.isPrimitive = true
            · rw [if_pos hp]; exact hP
            · rw [if_neg hp]
              have hvk : visitedIn acc k = true := by
                unfold visitedIn
                rw [hP.1, hP.2.1, hP.2.2]
                exact hk
              obtain ⟨e1, e2, e3⟩ := ih p.typeName acc k hvk
              exact ⟨e1.trans hP.1, e2.trans hP.2.1, e3.trans hP.2.2⟩
        | none =>
            cases hun : getUnionByName svc n with
            | some u =>
                have hbase :
                    alookup (aset d.unions n u) k = alookup d.unions k :=
                  alookup_aset_ne _ _ _ _ hkn
                refine foldl_preserve (P := fun (acc : DirMaps) =>
                  alookup acc.types k = alookup d.types k
                    ∧ alookup acc.unions k = alookup d.unions k
                    ∧ alookup acc.enums k = alookup d.enums k) ?_ _ _ ⟨rfl, hbase, rfl⟩
                intro acc m hP
                have hvk : visitedIn acc k = true := by
                  unfold visitedIn
                  rw [hP.1, hP.2.1, hP.2.2]
                  exact hk
                obtain ⟨e1, e2, e3⟩ := ih m.typeName acc k hvk
                exact ⟨e1.trans hP.1, e2.trans hP.2.1, e3.trans hP.2.2⟩
            | none =>
                cases hen : getEnumByName svc n with
                | some e => exact ⟨rfl, rfl, alookup_aset_ne _ _ _ _ hkn⟩
                | none => exact ⟨rfl, rfl, rfl⟩

/-- A traversal keeps every visited name visited. -/
theorem visited_mono (svc : Service) (fuel : Nat) (n : String) (d : DirMaps)
    (m : String) (h : visitedIn d m = true) :
    visitedIn (traverseD svc fuel n d) m = true := by
  obtain ⟨h1, h2, h3⟩ := lookup_frozen svc fuel n d m h
  unfold visitedIn at h ⊢
  rw [h1, h2, h3]
  exact h

/-- A traversal never increases the unvisited count. -/
theorem unvisitedCount_traverse_le (svc : Service) (fuel : Nat) (n : String)
    (d : DirMaps) :
    unvisitedCount svc (traverseD svc fuel n d) ≤ unvisitedCount svc d := by
  unfold unvisitedCount
  refine length_filter_mono _ _ _ ?_
  intro a _ hp
  rw [Bool.not_eq_true'] at hp ⊢
  cases hda : visitedIn d a with
  | false => rfl
  | true => exact absurd (visited_mono svc fuel n d a hda) (by simp [hp])

/-- Newly visiting a service entity name strictly decreases the unvisited
count. -/
theorem unvisited_lt_of_newly_visited (svc : Service) (d d1 : DirMaps) (n : String)
    (hmono : ∀ m, visitedIn d m = true → visitedIn d1 m = true)
    (hnew : visitedIn d1 n = true) (hold : visitedIn d n = false)
    (hmem : n ∈ (allEntityNames svc).dedup) :
    unvisitedCount svc d1 < unvisitedCount svc d := by
  unfold unvisitedCount
  refine length_filter_lt _ _ _ n ?_ hmem ?_ ?_
  · intro a _ hp
    rw [Bool.not_eq_true'] at hp ⊢
    cases hda : visitedIn d a with
    | false => rfl
    | true => exact absurd (hmono a hda) (by simp [hp])
  · rw [Bool.not_eq_true']
    exact hold
  · simp [hnew]

/-- A successful type lookup puts the name among the service's entity
names. -/
theorem mem_allEntityNames_of_type (svc : Service) (n : String) (t : Typ)
    (h : getTypeByName svc n = some t) : n ∈ allEntityNames svc := by
  unfold getTypeByName at h
  have hm := List.mem_of_find?_eq_some h
  have hp : t.name = n := by simpa using List.find?_some h
  unfold allEntityNames
  simp only [List.mem_append, List.mem_map]
  exact Or.inl (Or.inl ⟨t, hm, hp⟩)

/-- A successful union lookup puts the name among the service's entity
names. -/
theorem mem_allEntityNames_of_union (svc : Service) (n : String) (u : UnionT)
    (h : getUnionByName svc n = some u) : n ∈ allEntityNames svc := by
  unfold getUnionByName at h
  have hm := List.mem_of_find?_eq_some h
  have hp : u.name = n := by simpa using List.find?_some h
  unfold allEntityNames
  simp only [List.mem_append, List.mem_map]
  exact Or.inl (Or.inr ⟨u, hm, hp⟩)

/-- A successful enum lookup puts the name among the service's entity
names. -/
theorem mem_allEntityNames_of_enum (svc : Service) (n : String) (e : Enum)
    (h : getEnumByName svc n = some e) : n ∈ allEntityNames svc := by
  unfold getEnumByName at h
  have hm := List.mem_of_find?_eq_some h
  have hp : e.name = n := by simpa using List.find?_some h
  unfold allEntityNames
  simp only [List.mem_append, List.mem_map]
  exact Or.inr ⟨e, hm, hp⟩

/-- The unvisited count is always below the fuel bound. -/
theorem unvisitedCount_lt_bound (svc : Service) (d : DirMaps) :
    unvisitedCount svc d < bound svc :=
  Nat.lt_succ_of_le (List.length_filter_le _ _)

/-- Any two sufficient fuels compute the same traversal: the formal content
of the visited-set termination argument — once the fuel exceeds the number
of unvisited entity names, adding more fuel changes nothing. -/
theorem traverseD_fuel_congr (svc : Service) :
    ∀ (f₁ f₂ : Nat) (n : String) (d : DirMaps),
      unvisitedCount svc d < f₁ → unvisitedCount svc d < f₂ →
      traverseD svc f₁ n d = traverseD svc f₂ n d := by
  intro f₁
  induction f₁ with
  | zero => exact fun f₂ n d h₁ _ => absurd h₁ (Nat.not_lt_zero _)
  | succ k ih =>
      intro f₂ n d h₁ h₂
      cases f₂ with
      | zero => exact absurd h₂ (Nat.not_lt_zero _)
      | succ j =>
          simp only [traverseD]
          by_cases hv : visitedIn d n = true
          · rw [if_pos hv, if_pos hv]
          · rw [if_neg hv, if_neg hv]
            have hvf : visitedIn d n = false := Bool.not_eq_true _ ▸ Bool.of_not_eq_true hv
            cases hty : getTypeByName svc n with
            | some t =>
                have hd1 : unvisitedCount svc
                    { d with types := aset d.types n t } < unvisitedCount svc d := by
                  refine unvisited_lt_of_newly_visited svc d _ n
                    (fun m hm => visitedIn_setTypes_mono d n t m hm) ?_ hvf
                    (List.mem_dedup.mpr (mem_allEntityNames_of_type svc n t hty))
                  unfold visitedIn
                  rw [alookup_aset_self]
                  rfl
                have fold_eq : ∀ (props : List Property) (acc : DirMaps),
                    unvisitedCount svc acc < k → unvisitedCount svc acc < j →
                    props.foldl (fun acc' p =>
                        if p.isPrimitive then acc'
                        else traverseD svc k p.typeName acc') acc
                      = props.foldl (fun acc' p =>
                          if p.isPrimitive then acc'
                          else traverseD svc j p.typeName acc') acc := by
                  intro props
                  induction props with
                  | nil => exact fun _ _ _ => rfl
                  | cons p ps ihp =>
                      intro acc hak haj
                      simp only [List.foldl_cons]
                      by_cases hp : p.isPrimitive = true
                      · rw [if_pos hp, if_pos hp]
                        exact ihp acc hak haj
                      · rw [if_neg hp, if_neg hp]
                        have heq := ih j p.typeName acc hak haj
                        rw [← heq]
                        exact ihp (traverseD svc k p.typeName acc)
                          (lt_of_le_of_lt (unvisitedCount_traverse_le svc k _ acc) hak)
                          (lt_of_le_of_lt (unvisitedCount_traverse_le svc k _ acc) haj)
                exact fold_eq t.properties _ (by omega) (by omega)
            | none =>
                cases hun : getUnionByName svc n with
                | some u =>
                    have hd1 : unvisitedCount svc
                        { d with unions := aset d.unions n u } < unvisitedCount svc d := by
                      refine unvisited_lt_of_newly_visited svc d _ n
                        (fun m hm => visitedIn_setUnions_mono d n u m hm) ?_ hvf
                        (List.mem_dedup.mpr (mem_allEntityNames_of_union svc n u hun))
                      unfold visitedIn
                      rw [alookup_aset_self]
                      simp
                    have fold_eq : ∀ (mems : List TypedValue) (acc : DirMaps),
                        unvisitedCount svc acc < k → unvisitedCount svc acc < j →
                        mems.foldl (fun acc' m => traverseD svc k m.typeName acc') acc
                          = mems.foldl (fun acc' m => traverseD svc j m.typeName acc') acc := by
                      intro mems
                      induction mems with
                      | nil => exact fun _ _ _ => rfl
                      | cons m ms ihm =>
                          intro acc hak haj
                          simp only [List.foldl_cons]
                          have heq := ih j m.typeName acc hak haj
                          rw [← heq]
                          exact ihm (traverseD svc k m.typeName acc)
                            (lt_of_le_of_lt (unvisitedCount_traverse_le svc k _ acc) hak)
                            (lt_of_le_of_lt (unvisitedCount_traverse_le svc k _ acc) haj)
                    exact fold_eq u.members _ (by omega) (by omega)
                | none =>
                    cases hen : getEnumByName svc n with
                    | some e => rfl
                    | none => rfl

/-! ## Invariant preservation -/

/-- An option whose `isSome` is false is `none`. -/
theorem isSome_false_eq_none {α : Type} (o : Option α) (h : o.isSome = false) :
    o = none := by
  cases o
  · rfl
  · simp at h

/-- An unvisited name is absent from all three maps. -/
theorem visitedIn_false_parts (d : DirMaps) (n : String) (h : visitedIn d n = false) :
    alookup d.types n = none ∧ alookup d.unions n = none ∧ alookup d.enums n = none := by
  unfold visitedIn at h
  have h1 := Bool.or_eq_false_iff.mp h
  have h2 := Bool.or_eq_false_iff.mp h1.1
  exact ⟨isSome_false_eq_none _ h2.1, isSome_false_eq_none _ h2.2,
    isSome_false_eq_none _ h1.2⟩

/-- The name a type lookup succeeds for is the found type's name. -/
theorem getTypeByName_name (svc : Service) (n : String) (t : Typ)
    (h : getTypeByName svc n = some t) : t.name = n := by
  unfold getTypeByName at h
  simpa using List.find?_some h

/-- The name a union lookup succeeds for is the found union's name. -/
theorem getUnionByName_name (svc : Service) (n : String) (u : UnionT)
    (h : getUnionByName svc n = some u) : u.name = n := by
  unfold getUnionByName at h
  simpa using List.find?_some h

/-- The name an enum lookup succeeds for is the found enum's name. -/
theorem getEnumByName_name (svc : Service) (n : String) (e : Enum)
    (h : getEnumByName svc n = some e) : e.name = n := by
  unfold getEnumByName at h
  simpa using List.find?_some h

/-- A predicate preserved by each of the three recording steps (on an
unvisited name) is preserved by the whole traversal. -/
theorem traverseD_preserve (svc : Service) (P : DirMaps → Prop)
    (hType : ∀ d n t, getTypeByName svc n = some t → visitedIn d n = false →
      P d → P { d with types := aset d.types n t })
    (hUnion : ∀ d n u, getTypeByName svc n = none → getUnionByName svc n = some u →
      visitedIn d n = false → P d → P { d with unions := aset d.unions n u })
    (hEnum : ∀ d n e, getTypeByName svc n = none → getUnionByName svc n = none →
      getEnumByName svc n = some e → visitedIn d n = false →
      P d → P { d with enums := aset d.enums n e }) :
    ∀ (fuel : Nat) (n : String) (d : DirMaps), P d → P (traverseD svc fuel n d) := by
  intro fuel
  induction fuel with
  | zero => exact fun n d h => h
  | succ fuel ih =>
      intro n d hP
      simp only [traverseD]
      by_cases hv : visitedIn d n = true
      · rw [if_pos hv]
        exact hP
      · rw [if_neg hv]
        have hvf : visitedIn d n = false := Bool.not_eq_true _ ▸ Bool.of_not_eq_true hv
        cases hty : getTypeByName svc n with
        | some t =>
            refine foldl_preserve (P := P) ?_ _ _ (hType d n t hty hvf hP)
            intro acc p hPacc
            by_cases hp : p.isPrimitive = true
            · rw [if_pos hp]
              exact hPacc
            · rw [if_neg hp]
              exact ih p.typeName acc hPacc
        | none =>
            cases hun : getUnionByName svc n with
            | some u =>
                refine foldl_preserve (P := P) ?_ _ _ (hUnion d n u hty hun hvf hP)
                intro acc m hPacc
                exact ih m.typeName acc hPacc
            | none =>
                cases hen : getEnumByName svc n with
                | some e => exact hEnum d n e hty hun hen hvf hP
                | none => exact hP

/-- The traversal keeps the key sets of all three maps duplicate-free. -/
theorem nodupKeys_traverse (svc : Service) (fuel : Nat) (n : String) (d : DirMaps)
    (h : NodupKeys d) : NodupKeys (traverseD svc fuel n d) := by
  refine traverseD_preserve svc NodupKeys ?_ ?_ ?_ fuel n d h
  · intro d' n' t _ hvf ⟨h1, h2, h3⟩
    have hn : n' ∉ akeys d'.types :=
      (alookup_eq_none_iff_not_mem_akeys _ _).mp (visitedIn_false_parts d' n' hvf).1
    refine ⟨?_, h2, h3⟩
    rw [akeys_aset_of_not_mem _ _ _ hn]
    simp [List.nodup_append, h1, hn]
  · intro d' n' u _ _ hvf ⟨h1, h2, h3⟩
    have hn : n' ∉ akeys d'.unions :=
      (alookup_eq_none_iff_not_mem_akeys _ _).mp (visitedIn_false_parts d' n' hvf).2.1
    refine ⟨h1, ?_, h3⟩
    rw [akeys_aset_of_not_mem _ _ _ hn]
    simp [List.nodup_append, h2, hn]
  · intro d' n' e _ _ _ hvf ⟨h1, h2, h3⟩
    have hn : n' ∉ akeys d'.enums :=
      (alookup_eq_none_iff_not_mem_akeys _ _).mp (visitedIn_false_parts d' n' hvf).2.2
    refine ⟨h1, h2, ?_⟩
    rw [akeys_aset_of_not_mem _ _ _ hn]
    simp [List.nodup_append, h3, hn]

/-- The traversal stores every entry under its own name, in the category
the resolution priority assigns to that name. -/
theorem catOK_traverse (svc : Service) (fuel : Nat) (n : String) (d : DirMaps)
    (h : CatOK svc d) : CatOK svc (traverseD svc fuel n d) := by
  refine traverseD_preserve svc (CatOK svc) ?_ ?_ ?_ fuel n d h
  · intro d' n' t hty hvf ⟨h1, h2, h3⟩
    have hn : n' ∉ akeys d'.types :=
      (alookup_eq_none_iff_not_mem_akeys _ _).mp (visitedIn_false_parts d' n' hvf).1
    refine ⟨?_, h2, h3⟩
    intro kv hkv
    rcases (mem_aset_of_not_mem _ _ _ hn kv).mp hkv with hold | hnew
    · exact h1 kv hold
    · subst hnew
      exact ⟨getTypeByName_name svc n' t hty, hty⟩
  · intro d' n' u hty hun hvf ⟨h1, h2, h3⟩
    have hn : n' ∉ akeys d'.unions :=
      (alookup_eq_none_iff_not_mem_akeys _ _).mp (visitedIn_false_parts d' n' hvf).2.1
    refine ⟨h1, ?_, h3⟩
    intro kv hkv
    rcases (mem_aset_of_not_mem _ _ _ hn kv).mp hkv with hold | hnew
    · exact h2 kv hold
    · subst hnew
      exact ⟨getUnionByName_name svc n' u hun, hty, hun⟩
  · intro d' n' e hty hun hen hvf ⟨h1, h2, h3⟩
    have hn : n' ∉ akeys d'.enums :=
      (alookup_eq_none_iff_not_mem_akeys _ _).mp (visitedIn_false_parts d' n' hvf).2.2
    refine ⟨h1, h2, ?_⟩
    intro kv hkv
    rcases (mem_aset_of_not_mem _ _ _ hn kv).mp hkv with hold | hnew
    · exact h3 kv hold
    · subst hnew
      exact ⟨getEnumByName_name svc n' e hen, hty, hun, hen⟩

/-- The empty state has duplicate-free keys. -/
theorem nodupKeys_empty : NodupKeys DirMaps.empty :=
  ⟨List.nodup_nil, List.nodup_nil, List.nodup_nil⟩

/-- The empty state is categorized correctly. -/
theorem catOK_empty (svc : Service) : CatOK svc DirMaps.empty :=
  ⟨fun _ h => absurd h (List.not_mem_nil _),
    fun _ h => absurd h (List.not_mem_nil _),
    fun _ h => absurd h (List.not_mem_nil _)⟩

/-- Both invariants hold of any root-list closure. -/
theorem closureOf_invariants (svc : Service) (roots : List String) :
    NodupKeys (closureOf svc roots) ∧ CatOK svc (closureOf svc roots) := by
  unfold closureOf
  refine foldl_preserve (P := fun d => NodupKeys d ∧ CatOK svc d) ?_ roots DirMaps.empty
    ⟨nodupKeys_empty, catOK_empty svc⟩
  intro d n ⟨h1, h2⟩
  exact ⟨nodupKeys_traverse svc _ n d h1, catOK_traverse svc _ n d h2⟩

/-! ## Closure characterization -/

/-- Folding over a `flatMap` is the nested fold. -/
theorem foldl_flatMap_eq {α β γ : Type} (g : α → List β) (f : γ → β → γ)
    (l : List α) (init : γ) :
    (l.flatMap g).foldl f init = l.foldl (fun acc x => (g x).foldl f acc) init := by
  induction l generalizing init with
  | nil => rfl
  | cons x xs ih => simp [List.flatMap_cons, List.foldl_append, ih]

/-- The input closure is the root-list closure of the input roots. -/
theorem inputClosure_eq_closureOf (svc : Service) (int : Interface) :
    inputClosure svc int = closureOf svc (inputRoots int) := by
  unfold inputClosure closureOf inputRoots
  rw [foldl_flatMap_eq]
  congr 1
  funext d m
  rw [List.foldl_map]

/-- The output closure is the root-list closure of the output roots. -/
theorem outputClosure_eq_closureOf (svc : Service) (int : Interface) :
    outputClosure svc int = closureOf svc (outputRoots int) := by
  unfold outputClosure closureOf outputRoots
  generalize DirMaps.empty = init
  induction int.methods generalizing init with
  | nil => rfl
  | cons m ms ih =>
      simp only [List.foldl_cons, List.filterMap_cons]
      cases hrt : m.returnType with
      | none => exact ih init
      | some rt =>
          dsimp only
          by_cases hp : rt.isPrimitive = true
          · rw [if_pos hp, if_pos hp]
            exact ih init
          · rw [if_neg hp, if_neg hp]
            simp only [List.foldl_cons]
            exact ih _

/-- Nothing is visited in the empty state. -/
theorem visitedIn_empty (m : String) : visitedIn DirMaps.empty m = false := rfl

/-- With positive fuel, traversing a resolvable name visits it. -/
theorem traverseD_visits (svc : Service) (fuel : Nat) (n : String) (d : DirMaps)
    (hf : 0 < fuel) (hres : resolves svc n = true) :
    visitedIn (traverseD svc fuel n d) n = true := by
  cases fuel with
  | zero => exact absurd hf (Nat.lt_irrefl 0)
  | succ k =>
      simp only [traverseD]
      by_cases hv : visitedIn d n = true
      · rw [if_pos hv]
        exact hv
      · rw [if_neg hv]
        cases hty : getTypeByName svc n with
        | some t =>
            refine foldl_preserve (P := fun acc => visitedIn acc n = true) ?_ _ _ ?_
            · intro acc p hacc
              by_cases hp : p.isPrimitive = true
              · rw [if_pos hp]
                exact hacc
              · rw [if_neg hp]
                exact visited_mono svc k p.typeName acc n hacc
            · show visitedIn { d with types := aset d.types n t } n = true
              unfold visitedIn
              rw [alookup_aset_self]
              rfl
        | none =>
            cases hun : getUnionByName svc n with
            | some u =>
                refine foldl_preserve (P := fun acc => visitedIn acc n = true) ?_ _ _ ?_
                · intro acc m hacc
                  exact visited_mono svc k m.typeName acc n hacc
                · show visitedIn { d with unions := aset d.unions n u } n = true
                  unfold visitedIn
                  rw [alookup_aset_self]
                  simp
            | none =>
                cases hen : getEnumByName svc n with
                | some e =>
                    unfold visitedIn
                    rw [alookup_aset_self]
                    simp
                | none =>
                    unfold resolves at hres
                    rw [hty, hun, hen] at hres
                    simp at hres

/-- Visited names stay visited across a root-list closure fold. -/
theorem visited_fold_mono (svc : Service) (roots : List String) (d : DirMaps)
    (m : String) (h : visitedIn d m = true) :
    visitedIn (roots.foldl (fun d' n => traverseTop svc n d') d) m = true := by
  refine foldl_preserve (P := fun d' => visitedIn d' m = true) ?_ roots d h
  intro d' n hd'
  exact visited_mono svc (bound svc) n d' m hd'

/-- Every resolvable root is visited in the root-list closure. -/
theorem roots_visited (svc : Service) (roots : List String) :
    ∀ (d : DirMaps) (r : String), r ∈ roots → resolves svc r = true →
      visitedIn (roots.foldl (fun d' n => traverseTop svc n d') d) r = true := by
  induction roots with
  | nil => intro d r hr; cases hr
  | cons x xs ih =>
      intro d r hr hres
      rcases List.mem_cons.mp hr with rfl | hmem
      · simp only [List.foldl_cons]
        refine visited_fold_mono svc xs _ r ?_
        exact traverseD_visits svc (bound svc) r d (Nat.succ_pos _) hres
      · simp only [List.foldl_cons]
        exact ih _ r hmem hres

/-! ## Soundness: visited names are reachable -/

/-- A name visited after recording a type is the recorded name or was
already visited. -/
theorem visitedIn_setTypes_cases (d : DirMaps) (n : String) (t : Typ) (m : String)
    (h : visitedIn { d with types := aset d.types n t } m = true) :
    m = n ∨ visitedIn d m = true := by
  by_cases hm : m = n
  · exact Or.inl hm
  · right
    unfold visitedIn at h ⊢
    rwa [alookup_aset_ne _ _ _ _ hm] at h

/-- A name visited after recording a union is the recorded name or was
already visited. -/
theorem visitedIn_setUnions_cases (d : DirMaps) (n : String) (u : UnionT) (m : String)
    (h : visitedIn { d with unions := aset d.unions n u } m = true) :
    m = n ∨ visitedIn d m = true := by
  by_cases hm : m = n
  · exact Or.inl hm
  · right
    unfold visitedIn at h ⊢
    rwa [alookup_aset_ne _ _ _ _ hm] at h

/-- A name visited after recording an enum is the recorded name or was
already visited. -/
theorem visitedIn_setEnums_cases (d : DirMaps) (n : String) (e : Enum) (m : String)
    (h : visitedIn { d with enums := aset d.enums n e } m = true) :
    m = n ∨ visitedIn d m = true := by
  by_cases hm : m = n
  · exact Or.inl hm
  · right
    unfold visitedIn at h ⊢
    rwa [alookup_aset_ne _ _ _ _ hm] at h

/-- A name with a type resolves. -/
theorem resolves_of_type (svc : Service) (n : String) (t : Typ)
    (h : getTypeByName svc n = some t) : resolves svc n = true := by
  simp [resolves, h]

/-- A name with a union resolves. -/
theorem resolves_of_union (svc : Service) (n : String) (u : UnionT)
    (h : getUnionByName svc n = some u) : resolves svc n = true := by
  simp [resolves, h]

/-- A name with an enum resolves. -/
theorem resolves_of_enum (svc : Service) (n : String) (e : Enum)
    (h : getEnumByName svc n = some e) : resolves svc n = true := by
  simp [resolves, h]

/-- Children of a name that resolves to a type. -/
theorem childNames_of_type (svc : Service) (n : String) (t : Typ)
    (h : getTypeByName svc n = some t) :
    childNames svc n
      = (t.properties.filter (fun p => !p.isPrimitive)).map Property.typeName := by
  unfold childNames
  rw [h]

/-- Children of a name that resolves to a union (and not a type). -/
theorem childNames_of_union (svc : Service) (n : String) (u : UnionT)
    (h1 : getTypeByName svc n = none) (h2 : getUnionByName svc n = some u) :
    childNames svc n = u.members.map TypedValue.typeName := by
  unfold childNames
  rw [h1, h2]

/-- A name that resolves to neither a type nor a union has no children. -/
theorem childNames_of_no_recursion (svc : Service) (n : String)
    (h1 : getTypeByName svc n = none) (h2 : getUnionByName svc n = none) :
    childNames svc n = [] := by
  unfold childNames
  rw [h1, h2]

/-- A name with a child resolves (to a type or a union). -/
theorem resolves_of_childNames_mem (svc : Service) (b c : String)
    (h : c ∈ childNames svc b) : resolves svc b = true := by
  unfold childNames at h
  cases hty : getTypeByName svc b with
  | some t => exact resolves_of_type svc b t hty
  | none =>
      rw [hty] at h
      cases hun : getUnionByName svc b with
      | some u => exact resolves_of_union svc b u hun
      | none =>
          rw [hun] at h
          exact absurd h (List.not_mem_nil _)

/-- Reachability is transitive. -/
theorem Reach.trans {svc : Service} {a b c : String}
    (h1 : Reach svc a b) (h2 : Reach svc b c) : Reach svc a c := by
  induction h2 with
  | refl => exact h1
  | step _ mem ih => exact Reach.step ih mem

/-- Every name visited by one traversal was already visited or is reachable
from the traversal's root and resolves. -/
theorem visited_reach_sound (svc : Service) :
    ∀ (fuel : Nat) (n : String) (d : DirMaps) (m : String),
      visitedIn (traverseD svc fuel n d) m = true →
      visitedIn d m = true ∨ (Reach svc n m ∧ resolves svc m = true) := by
  intro fuel
  induction fuel with
  | zero => exact fun n d m h => Or.inl h
  | succ k ih =>
      intro n d m
      simp only [traverseD]
      by_cases hv : visitedIn d n = true
      · rw [if_pos hv]
        exact fun h => Or.inl h
      · rw [if_neg hv]
        cases hty : getTypeByName svc n with
        | some t =>
            have fold_sound : ∀ (props : List Property) (acc : DirMaps) (m' : String),
                visitedIn (props.foldl (fun acc' p =>
                    if p.isPrimitive then acc'
                    else traverseD svc k p.typeName acc') acc) m' = true →
                visitedIn acc m' = true
                  ∨ ∃ p, p ∈ props ∧ p.isPrimitive = false
                      ∧ Reach svc p.typeName m' ∧ resolves svc m' = true := by
              intro props
              induction props with
              | nil => exact fun acc m' h => Or.inl h
              | cons p ps ihp =>
                  intro acc m' h
                  simp only [List.foldl_cons] at h
                  by_cases hp : p.isPrimitive = true
                  · rw [if_pos hp] at h
                    rcases ihp acc m' h with h' | ⟨q, hq, hqp, hr⟩
                    · exact Or.inl h'
                    · exact Or.inr ⟨q, List.mem_cons_of_mem _ hq, hqp, hr⟩
                  · rw [if_neg hp] at h
                    rcases ihp _ m' h with h' | ⟨q, hq, hqp, hr⟩
                    · rcases ih p.typeName acc m' h' with h'' | ⟨hre, hres⟩
                      · exact Or.inl h''
                      · exact Or.inr ⟨p, List.mem_cons_self _ _,
                          Bool.not_eq_true _ ▸ Bool.of_not_eq_true hp, hre, hres⟩
                    · exact Or.inr ⟨q, List.mem_cons_of_mem _ hq, hqp, hr⟩
            intro h
            rcases fold_sound t.properties _ m h with h1 | ⟨p, hp_mem, hp_prim, hre, hres⟩
            · rcases visitedIn_setTypes_cases d n t m h1 with rfl | h2
              · exact Or.inr ⟨Reach.refl _, resolves_of_type svc _ t hty⟩
              · exact Or.inl h2
            · have hedge : p.typeName ∈ childNames svc n := by
                rw [childNames_of_type svc n t hty]
                exact List.mem_map_of_mem _
                  (List.mem_filter.mpr ⟨hp_mem, by simp [hp_prim]⟩)
              exact Or.inr ⟨Reach.trans (Reach.step (Reach.refl n) hedge) hre, hres⟩
        | none =>
            cases hun : getUnionByName svc n with
            | some u =>
                have fold_sound : ∀ (mems : List TypedValue) (acc : DirMaps) (m' : String),
                    visitedIn (mems.foldl
                        (fun acc' mv => traverseD svc k mv.typeName acc') acc) m' = true →
                    visitedIn acc m' = true
                      ∨ ∃ mv, mv ∈ mems ∧ Reach svc mv.typeName m'
                          ∧ resolves svc m' = true := by
                  intro mems
                  induction mems with
                  | nil => exact fun acc m' h => Or.inl h
                  | cons mv ms ihm =>
                      intro acc m' h
                      simp only [List.foldl_cons] at h
                      rcases ihm _ m' h with h' | ⟨q, hq, hr⟩
                      · rcases ih mv.typeName acc m' h' with h'' | ⟨hre, hres⟩
                        · exact Or.inl h''
                        · exact Or.inr ⟨mv, List.mem_cons_self _ _, hre, hres⟩
                      · exact Or.inr ⟨q, List.mem_cons_of_mem _ hq, hr⟩
                intro h
                rcases fold_sound u.members _ m h with h1 | ⟨mv, hmv, hre, hres⟩
                · rcases visitedIn_setUnions_cases d n u m h1 with rfl | h2
                  · exact Or.inr ⟨Reach.refl _, resolves_of_union svc _ u hun⟩
                  · exact Or.inl h2
                · have hedge : mv.typeName ∈ childNames svc n := by
                    rw [childNames_of_union svc n u hty hun]
                    exact List.mem_map_of_mem _ hmv
                  exact Or.inr ⟨Reach.trans (Reach.step (Reach.refl n) hedge) hre, hres⟩
            | none =>
                cases hen : getEnumByName svc n with
                | some e =>
                    intro h
                    rcases visitedIn_setEnums_cases d n e m h with rfl | h2
                    · exact Or.inr ⟨Reach.refl _, resolves_of_enum svc _ e hen⟩
                    · exact Or.inl h2
                | none => exact fun h => Or.inl h

/-- Every name visited in a root-list closure is reachable from a root. -/
theorem closure_sound (svc : Service) (roots : List String) :
    ∀ (d : DirMaps) (m : String),
      visitedIn (roots.foldl (fun d' n => traverseTop svc n d') d) m = true →
      visitedIn d m = true ∨ ∃ r ∈ roots, Reach svc r m ∧ resolves svc m = true := by
  induction roots with
  | nil => exact fun d m h => Or.inl h
  | cons x xs ih =>
      intro d m h
      simp only [List.foldl_cons] at h
      rcases ih _ m h with h' | ⟨r, hr, hrm⟩
      · rcases visited_reach_sound svc (bound svc) x d m h' with h'' | ⟨hre, hres⟩
        · exact Or.inl h''
        · exact Or.inr ⟨x, List.mem_cons_self _ _, hre, hres⟩
      · exact Or.inr ⟨r, List.mem_cons_of_mem _ hr, hrm⟩

/-! ## Completeness: reachable names are visited -/

/-- Names first visited by a traversal have all their resolvable children
visited by the traversal's end: the new part of the state is closed. -/
theorem new_closed (svc : Service) :
    ∀ (fuel : Nat) (n : String) (d : DirMaps),
      unvisitedCount svc d < fuel →
      ∀ m, visitedIn (traverseD svc fuel n d) m = true →
        visitedIn d m = true ∨ ChildrenDone svc (traverseD svc fuel n d) m := by
  intro fuel
  induction fuel with
  | zero => exact fun n d h => absurd h (Nat.not_lt_zero _)
  | succ k ih =>
      intro n d hmeas m
      simp only [traverseD]
      by_cases hv : visitedIn d n = true
      · rw [if_pos hv]
        exact fun h => Or.inl h
      · rw [if_neg hv]
        have hvf : visitedIn d n = false := Bool.not_eq_true _ ▸ Bool.of_not_eq_true hv
        cases hty : getTypeByName svc n with
        | some t =>
            have fmono : ∀ (props : List Property) (acc : DirMaps) (x : String),
                visitedIn acc x = true →
                visitedIn (props.foldl (fun acc' p =>
                    if p.isPrimitive then acc'
                    else traverseD svc k p.typeName acc') acc) x = true := by
              intro props acc x hx
              refine foldl_preserve (P := fun a => visitedIn a x = true) ?_ props acc hx
              intro a p ha
              by_cases hp : p.isPrimitive = true
              · rw [if_pos hp]
                exact ha
              · rw [if_neg hp]
                exact visited_mono svc k p.typeName a x ha
            have fold_lem : ∀ (props : List Property) (acc : DirMaps),
                unvisitedCount svc acc < k →
                ((∀ m', visitedIn (props.foldl (fun acc' p =>
                      if p.isPrimitive then acc'
                      else traverseD svc k p.typeName acc') acc) m' = true →
                    visitedIn acc m' = true
                      ∨ ChildrenDone svc (props.foldl (fun acc' p =>
                          if p.isPrimitive then acc'
                          else traverseD svc k p.typeName acc') acc) m')
                  ∧ (∀ p ∈ props, p.isPrimitive = false →
                      resolves svc p.typeName = true →
                      visitedIn (props.foldl (fun acc' p' =>
                          if p'.isPrimitive then acc'
                          else traverseD svc k p'.typeName acc') acc) p.typeName = true)
                  ∧ unvisitedCount svc (props.foldl (fun acc' p =>
                      if p.isPrimitive then acc'
                      else traverseD svc k p.typeName acc') acc)
                      ≤ unvisitedCount svc acc) := by
              intro props
              induction props with
              | nil =>
                  intro acc _
                  exact ⟨fun m' h => Or.inl h,
                    fun p hp => absurd hp (List.not_mem_nil _), le_refl _⟩
              | cons p ps ihp =>
                  intro acc hk
                  simp only [List.foldl_cons]
                  by_cases hp : p.isPrimitive = true
                  · rw [if_pos hp]
                    obtain ⟨c1, c2, c3⟩ := ihp acc hk
                    refine ⟨c1, ?_, c3⟩
                    intro q hq hqprim hqres
                    rcases List.mem_cons.mp hq with rfl | hmem
                    · rw [hp] at hqprim
                      cases hqprim
                    · exact c2 q hmem hqprim hqres
                  · rw [if_neg hp]
                    have hle : unvisitedCount svc (traverseD svc k p.typeName acc)
                        ≤ unvisitedCount svc acc := unvisitedCount_traverse_le svc k _ acc
                    have hk' : unvisitedCount svc (traverseD svc k p.typeName acc) < k :=
                      lt_of_le_of_lt hle hk
                    obtain ⟨c1, c2, c3⟩ := ihp (traverseD svc k p.typeName acc) hk'
                    refine ⟨?_, ?_, le_trans c3 hle⟩
                    · intro m' hm'
                      rcases c1 m' hm' with h' | hcd
                      · rcases ih p.typeName acc hk m' h' with h'' | hcd'
                        · exact Or.inl h''
                        · right
                          intro c hc hcres
                          exact fmono ps _ c (hcd' c hc hcres)
                      · exact Or.inr hcd
                    · intro q hq hqprim hqres
                      rcases List.mem_cons.mp hq with rfl | hmem
                      · refine fmono ps _ _ ?_
                        refine traverseD_visits svc k _ acc ?_ hqres
                        omega
                      · exact c2 q hmem hqprim hqres
            intro h
            have hd1 : unvisitedCount svc
                { d with types := aset d.types n t } < k := by
              have hlt := unvisited_lt_of_newly_visited svc d
                { d with types := aset d.types n t } n
                (fun m' hm' => visitedIn_setTypes_mono d n t m' hm')
                (by
                  show visitedIn { d with types := aset d.types n t } n = true
                  unfold visitedIn
                  rw [alookup_aset_self]
                  rfl)
                hvf
                (List.mem_dedup.mpr (mem_allEntityNames_of_type svc n t hty))
              omega
            obtain ⟨c1, c2, _⟩ := fold_lem t.properties _ hd1
            rcases c1 m h with h1 | hcd
            · rcases visitedIn_setTypes_cases d n t m h1 with rfl | h2
              · right
                intro c hc hcres
                rw [childNames_of_type svc m t hty] at hc
                obtain ⟨p, hpmem, hpc⟩ := List.mem_map.mp hc
                obtain ⟨hpp, hpprim⟩ := List.mem_filter.mp hpmem
                have hpf : p.isPrimitive = false := by
                  cases hpb : p.isPrimitive
                  · rfl
                  · rw [hpb] at hpprim
                    cases hpprim
                subst hpc
                exact c2 p hpp hpf hcres
              · exact Or.inl h2
            · exact Or.inr hcd
        | none =>
            cases hun : getUnionByName svc n with
            | some u =>
                have fmono : ∀ (mems : List TypedValue) (acc : DirMaps) (x : String),
                    visitedIn acc x = true →
                    visitedIn (mems.foldl (fun acc' mv =>
                        traverseD svc k mv.typeName acc') acc) x = true := by
                  intro mems acc x hx
                  refine foldl_preserve (P := fun a => visitedIn a x = true) ?_ mems acc hx
                  intro a mv ha
                  exact visited_mono svc k mv.typeName a x ha
                have fold_lem : ∀ (mems : List TypedValue) (acc : DirMaps),
                    unvisitedCount svc acc < k →
                    ((∀ m', visitedIn (mems.foldl (fun acc' mv =>
                          traverseD svc k mv.typeName acc') acc) m' = true →
                        visitedIn acc m' = true
                          ∨ ChildrenDone svc (mems.foldl (fun acc' mv =>
                              traverseD svc k mv.typeName acc') acc) m')
                      ∧ (∀ mv ∈ mems, resolves svc mv.typeName = true →
                          visitedIn (mems.foldl (fun acc' mv' =>
                              traverseD svc k mv'.typeName acc') acc) mv.typeName = true)
                      ∧ unvisitedCount svc (mems.foldl (fun acc' mv =>
                          traverseD svc k mv.typeName acc') acc)
                          ≤ unvisitedCount svc acc) := by
                  intro mems
                  induction mems with
                  | nil =>
                      intro acc _
                      exact ⟨fun m' h => Or.inl h,
                        fun mv hmv => absurd hmv (List.not_mem_nil _), le_refl _⟩
                  | cons mv ms ihm =>
                      intro acc hk
                      simp only [List.foldl_cons]
                      have hle : unvisitedCount svc (traverseD svc k mv.typeName acc)
                          ≤ unvisitedCount svc acc := unvisitedCount_traverse_le svc k _ acc
                      have hk' : unvisitedCount svc (traverseD svc k mv.typeName acc) < k :=
                        lt_of_le_of_lt hle hk
                      obtain ⟨c1, c2, c3⟩ := ihm (traverseD svc k mv.typeName acc) hk'
                      refine ⟨?_, ?_, le_trans c3 hle⟩
                      · intro m' hm'
                        rcases c1 m' hm' with h' | hcd
                        · rcases ih mv.typeName acc hk m' h' with h'' | hcd'
                          · exact Or.inl h''
                          · right
                            intro c hc hcres
                            exact fmono ms _ c (hcd' c hc hcres)
                        · exact Or.inr hcd
                      · intro q hq hqres
                        rcases List.mem_cons.mp hq with rfl | hmem
                        · refine fmono ms _ _ ?_
                          refine traverseD_visits svc k _ acc ?_ hqres
                          omega
                        · exact c2 q hmem hqres
                intro h
                have hd1 : unvisitedCount svc
                    { d with unions := aset d.unions n u } < k := by
                  have hlt := unvisited_lt_of_newly_visited svc d
                    { d with unions := aset d.unions n u } n
                    (fun m' hm' => visitedIn_setUnions_mono d n u m' hm')
                    (by
                      show visitedIn { d with unions := aset d.unions n u } n = true
                      unfold visitedIn
                      rw [alookup_aset_self]
                      simp)
                    hvf
                    (List.mem_dedup.mpr (mem_allEntityNames_of_union svc n u hun))
                  omega
                obtain ⟨c1, c2, _⟩ := fold_lem u.members _ hd1
                rcases c1 m h with h1 | hcd
                · rcases visitedIn_setUnions_cases d n u m h1 with rfl | h2
                  · right
                    intro c hc hcres
                    rw [childNames_of_union svc m u hty hun] at hc
                    obtain ⟨mv, hmvmem, hmvc⟩ := List.mem_map.mp hc
                    subst hmvc
                    exact c2 mv hmvmem hcres
                  · exact Or.inl h2
                · exact Or.inr hcd
            | none =>
                cases hen : getEnumByName svc n with
                | some e =>
                    intro h
                    rcases visitedIn_setEnums_cases d n e m h with rfl | h2
                    · right
                      intro c hc
                      rw [childNames_of_no_recursion svc m hty hun] at hc
                      exact absurd hc (List.not_mem_nil _)
                    · exact Or.inl h2
                | none => exact fun h => Or.inl h

/-- Any root-list closure is a closed state. -/
theorem closureOf_closed (svc : Service) (roots : List String) :
    ClosedState svc (closureOf svc roots) := by
  unfold closureOf
  refine foldl_preserve (P := fun d => ClosedState svc d) ?_ roots DirMaps.empty ?_
  · intro d n hd m hm
    rcases new_closed svc (bound svc) n d (unvisitedCount_lt_bound svc d) m hm with h1 | h2
    · intro c hc hcres
      exact visited_mono svc (bound svc) n d c (hd m h1 c hc hcres)
    · exact h2
  · intro m hm
    rw [visitedIn_empty] at hm
    cases hm

/-- In a closed state, everything resolvable and reachable from a visited
root is visited. -/
theorem reach_visited_of_closed (svc : Service) (d : DirMaps)
    (hclosed : ClosedState svc d) (r : String) (hr : visitedIn d r = true) :
    ∀ m, Reach svc r m → resolves svc m = true → visitedIn d m = true := by
  intro m hre
  induction hre with
  | refl => exact fun _ => hr
  | step hab hmem ih =>
      intro hres
      have hb := ih (resolves_of_childNames_mem svc _ _ hmem)
      exact hclosed _ hb _ hmem hres

/-- The root of a reach chain whose target resolves also resolves. -/
theorem reach_resolves_root (svc : Service) {r m : String} (hre : Reach svc r m)
    (hres : resolves svc m = true) : resolves svc r = true := by
  induction hre with
  | refl => exact hres
  | step hab hmem ih => exact ih (resolves_of_childNames_mem svc _ _ hmem)

/-- Every resolvable name reachable from a root is visited in the root-list
closure. -/
theorem closure_complete (svc : Service) (roots : List String) (r m : String)
    (hr : r ∈ roots) (hre : Reach svc r m) (hres : resolves svc m = true) :
    visitedIn (closureOf svc roots) m = true := by
  have hrres := reach_resolves_root svc hre hres
  have hrv : visitedIn (closureOf svc roots) r = true :=
    roots_visited svc roots DirMaps.empty r hr hrres
  exact reach_visited_of_closed svc _ (closureOf_closed svc roots) r hrv m hre hres

/-- A present key of an association list has an entry under it. -/
theorem exists_entry_of_mem_akeys {α : Type} (l : List (String × α)) (k : String)
    (h : k ∈ akeys l) : ∃ kv ∈ l, kv.1 = k := by
  unfold akeys at h
  obtain ⟨kv, hkv, hfst⟩ := List.mem_map.mp h
  exact ⟨kv, hkv, hfst⟩

/-- Membership in a root-list closure's type map: the names that resolve to
a type and are reachable from a root. -/
theorem closure_types_mem_iff (svc : Service) (roots : List String) (n : String) :
    n ∈ akeys (closureOf svc roots).types
      ↔ ((getTypeByName svc n).isSome = true ∧ ∃ r ∈ roots, Reach svc r n) := by
  constructor
  · intro h
    have hvis : visitedIn (closureOf svc roots) n = true := by
      unfold visitedIn
      rw [(alookup_isSome_iff_mem_akeys _ n).mpr h]
      simp
    have hsound := closure_sound svc roots DirMaps.empty n hvis
    rw [visitedIn_empty] at hsound
    rcases hsound with hfalse | ⟨r, hr, hre, _⟩
    · cases hfalse
    · obtain ⟨kv, hkv, hfst⟩ := exists_entry_of_mem_akeys _ n h
      have hcat := (closureOf_invariants svc roots).2.1 kv hkv
      refine ⟨?_, r, hr, hre⟩
      rw [← hfst, hcat.2]
      rfl
  · rintro ⟨hty, r, hr, hre⟩
    obtain ⟨t, ht⟩ := Option.isSome_iff_exists.mp hty
    have hres := resolves_of_type svc n t ht
    have hvis := closure_complete svc roots r n hr hre hres
    unfold visitedIn at hvis
    rcases Bool.or_eq_true_iff.mp hvis with h' | h3
    · rcases Bool.or_eq_true_iff.mp h' with h1 | h2
      · exact (alookup_isSome_iff_mem_akeys _ n).mp h1
      · obtain ⟨kv, hkv, hfst⟩ := exists_entry_of_mem_akeys _ n
          ((alookup_isSome_iff_mem_akeys _ n).mp h2)
        have hcat := (closureOf_invariants svc roots).2.2.1 kv hkv
        rw [hfst] at hcat
        rw [hcat.2.1] at ht
        cases ht
    · obtain ⟨kv, hkv, hfst⟩ := exists_entry_of_mem_akeys _ n
        ((alookup_isSome_iff_mem_akeys _ n).mp h3)
      have hcat := (closureOf_invariants svc roots).2.2.2 kv hkv
      rw [hfst] at hcat
      rw [hcat.2.1] at ht
      cases ht

/-- Membership in a root-list closure's union map: the names that resolve
to a union but not a type, and are reachable from a root. -/
theorem closure_unions_mem_iff (svc : Service) (roots : List String) (n : String) :
    n ∈ akeys (closureOf svc roots).unions
      ↔ (getTypeByName svc n = none ∧ (getUnionByName svc n).isSome = true
          ∧ ∃ r ∈ roots, Reach svc r n) := by
  constructor
  · intro h
    have hvis : visitedIn (closureOf svc roots) n = true := by
      unfold visitedIn
      rw [(alookup_isSome_iff_mem_akeys _ n).mpr h]
      simp
    have hsound := closure_sound svc roots DirMaps.empty n hvis
    rw [visitedIn_empty] at hsound
    rcases hsound with hfalse | ⟨r, hr, hre, _⟩
    · cases hfalse
    · obtain ⟨kv, hkv, hfst⟩ := exists_entry_of_mem_akeys _ n h
      have hcat := (closureOf_invariants svc roots).2.2.1 kv hkv
      rw [hfst] at hcat
      refine ⟨hcat.2.1, ?_, r, hr, hre⟩
      rw [hcat.2.2]
      rfl
  · rintro ⟨hty, hun, r, hr, hre⟩
    obtain ⟨u, hu⟩ := Option.isSome_iff_exists.mp hun
    have hres := resolves_of_union svc n u hu
    have hvis := closure_complete svc roots r n hr hre hres
    unfold visitedIn at hvis
    rcases Bool.or_eq_true_iff.mp hvis with h' | h3
    · rcases Bool.or_eq_true_iff.mp h' with h1 | h2
      · obtain ⟨kv, hkv, hfst⟩ := exists_entry_of_mem_akeys _ n
          ((alookup_isSome_iff_mem_akeys _ n).mp h1)
        have hcat := (closureOf_invariants svc roots).2.1 kv hkv
        rw [hfst] at hcat
        rw [hcat.2] at hty
        cases hty
      · exact (alookup_isSome_iff_mem_akeys _ n).mp h2
    · obtain ⟨kv, hkv, hfst⟩ := exists_entry_of_mem_akeys _ n
        ((alookup_isSome_iff_mem_akeys _ n).mp h3)
      have hcat := (closureOf_invariants svc roots).2.2.2 kv hkv
      rw [hfst] at hcat
      rw [hcat.2.2.1] at hu
      cases hu

/-- Membership in a root-list closure's enum map: the names that resolve to
an enum but to no type or union, and are reachable from a root. -/
theorem closure_enums_mem_iff (svc : Service) (roots : List String) (n : String) :
    n ∈ akeys (closureOf svc roots).enums
      ↔ (getTypeByName svc n = none ∧ getUnionByName svc n = none
          ∧ (getEnumByName svc n).isSome = true ∧ ∃ r ∈ roots, Reach svc r n) := by
  constructor
  · intro h
    have hvis : visitedIn (closureOf svc roots) n = true := by
      unfold visitedIn
      rw [(alookup_isSome_iff_mem_akeys _ n).mpr h]
      simp
    have hsound := closure_sound svc roots DirMaps.empty n hvis
    rw [visitedIn_empty] at hsound
    rcases hsound with hfalse | ⟨r, hr, hre, _⟩
    · cases hfalse
    · obtain ⟨kv, hkv, hfst⟩ := exists_entry_of_mem_akeys _ n h
      have hcat := (closureOf_invariants svc roots).2.2.2 kv hkv
      rw [hfst] at hcat
      refine ⟨hcat.2.1, hcat.2.2.1, ?_, r, hr, hre⟩
      rw [hcat.2.2.2]
      rfl
  · rintro ⟨hty, hun, hen, r, hr, hre⟩
    obtain ⟨e, he⟩ := Option.isSome_iff_exists.mp hen
    have hres := resolves_of_enum svc n e he
    have hvis := closure_complete svc roots r n hr hre hres
    unfold visitedIn at hvis
    rcases Bool.or_eq_true_iff.mp hvis with h' | h3
    · rcases Bool.or_eq_true_iff.mp h' with h1 | h2
      · obtain ⟨kv, hkv, hfst⟩ := exists_entry_of_mem_akeys _ n
          ((alookup_isSome_iff_mem_akeys _ n).mp h1)
        have hcat := (closureOf_invariants svc roots).2.1 kv hkv
        rw [hfst] at hcat
        rw [hcat.2] at hty
        cases hty
      · obtain ⟨kv, hkv, hfst⟩ := exists_entry_of_mem_akeys _ n
          ((alookup_isSome_iff_mem_akeys _ n).mp h2)
        have hcat := (closureOf_invariants svc roots).2.2.1 kv hkv
        rw [hfst] at hcat
        rw [hcat.2.2] at hun
        cases hun
    · exact (alookup_isSome_iff_mem_akeys _ n).mp h3

/-! ## Sortedness and the merged view -/

/-- The code-point comparison is total. -/
theorem listLeB_total : ∀ (x y : List Char), listLeB x y = true ∨ listLeB y x = true := by
  intro x
  induction x with
  | nil => intro y; left; rfl
  | cons a as ih =>
      intro y
      cases y with
      | nil => right; rfl
      | cons b bs =>
          by_cases h1 : a.toNat < b.toNat
          · left
            simp only [listLeB, if_pos h1]
          · by_cases h2 : b.toNat < a.toNat
            · right
              simp only [listLeB, if_pos h2]
            · rcases ih bs with h | h
              · left
                simp only [listLeB, if_neg h1, if_neg h2]
                exact h
              · right
                simp only [listLeB, if_neg h1, if_neg h2]
                exact h

/-- The code-point comparison is transitive. -/
theorem listLeB_trans : ∀ (x y z : List Char),
    listLeB x y = true → listLeB y z = true → listLeB x z = true := by
  intro x
  induction x with
  | nil => intro y z _ _; rfl
  | cons a as ih =>
      intro y z h1 h2
      cases y with
      | nil => simp [listLeB] at h1
      | cons b bs =>
          cases z with
          | nil => simp [listLeB] at h2
          | cons c cs =>
              simp only [listLeB] at h1 h2 ⊢
              by_cases hab : a.toNat < b.toNat
              · by_cases hbc : b.toNat < c.toNat
                · rw [if_pos (by omega : a.toNat < c.toNat)]
                · by_cases hcb : c.toNat < b.toNat
                  · rw [if_neg hbc, if_pos hcb] at h2
                    cases h2
                  · rw [if_pos (by omega : a.toNat < c.toNat)]
              · by_cases hba : b.toNat < a.toNat
                · rw [if_neg hab, if_pos hba] at h1
                  cases h1
                · by_cases hbc : b.toNat < c.toNat
                  · rw [if_pos (by omega : a.toNat < c.toNat)]
                  · by_cases hcb : c.toNat < b.toNat
                    · rw [if_neg hbc, if_pos hcb] at h2
                      cases h2
                    · rw [if_neg hab, if_neg hba] at h1
                      rw [if_neg hbc, if_neg hcb] at h2
                      rw [if_neg (by omega : ¬ a.toNat < c.toNat),
                        if_neg (by omega : ¬ c.toNat < a.toNat)]
                      exact ih bs cs h1 h2

/-- String comparison is total. -/
theorem strLeB_total (a b : String) : strLeB a b = true ∨ strLeB b a = true :=
  listLeB_total a.data b.data

/-- String comparison is transitive. -/
theorem strLeB_trans (a b c : String) (h1 : strLeB a b = true)
    (h2 : strLeB b c = true) : strLeB a c = true :=
  listLeB_trans a.data b.data c.data h1 h2

/-- `sortStrings` sorts ascending. -/
theorem sortStrings_sorted (l : List String) :
    List.Sorted (fun a b : String => strLeB a b = true) (sortStrings l) := by
  haveI : IsTotal String (fun a b : String => strLeB a b = true) :=
    ⟨fun a b => strLeB_total a b⟩
  haveI : IsTrans String (fun a b : String => strLeB a b = true) :=
    ⟨fun a b c => strLeB_trans a b c⟩
  exact List.sorted_insertionSort _ l

/-- `sortStrings` permutes its input. -/
theorem sortStrings_perm (l : List String) : (sortStrings l).Perm l :=
  List.perm_insertionSort _ l

/-- `sortTypsByName` sorts ascending by name. -/
theorem sortTypsByName_sorted (l : List Typ) :
    List.Sorted (fun a b : Typ => strLeB a.name b.name = true) (sortTypsByName l) := by
  haveI : IsTotal Typ (fun a b : Typ => strLeB a.name b.name = true) :=
    ⟨fun a b => strLeB_total a.name b.name⟩
  haveI : IsTrans Typ (fun a b : Typ => strLeB a.name b.name = true) :=
    ⟨fun a b c => strLeB_trans a.name b.name c.name⟩
  exact List.sorted_insertionSort _ l

/-- `sortTypsByName` permutes its input. -/
theorem sortTypsByName_perm (l : List Typ) : (sortTypsByName l).Perm l :=
  List.perm_insertionSort _ l

/-- `sortUnionsByName` sorts ascending by name. -/
theorem sortUnionsByName_sorted (l : List UnionT) :
    List.Sorted (fun a b : UnionT => strLeB a.name b.name = true) (sortUnionsByName l) := by
  haveI : IsTotal UnionT (fun a b : UnionT => strLeB a.name b.name = true) :=
    ⟨fun a b => strLeB_total a.name b.name⟩
  haveI : IsTrans UnionT (fun a b : UnionT => strLeB a.name b.name = true) :=
    ⟨fun a b c => strLeB_trans a.name b.name c.name⟩
  exact List.sorted_insertionSort _ l

/-- `sortEnumsByName` sorts ascending by name. -/
theorem sortEnumsByName_sorted (l : List Enum) :
    List.Sorted (fun a b : Enum => strLeB a.name b.name = true) (sortEnumsByName l) := by
  haveI : IsTotal Enum (fun a b : Enum => strLeB a.name b.name = true) :=
    ⟨fun a b => strLeB_total a.name b.name⟩
  haveI : IsTrans Enum (fun a b : Enum => strLeB a.name b.name = true) :=
    ⟨fun a b c => strLeB_trans a.name b.name c.name⟩
  exact List.sorted_insertionSort _ l

/-- `sortMethodsByName` sorts ascending by name. -/
theorem sortMethodsByName_sorted (l : List Method) :
    List.Sorted (fun a b : Method => strLeB a.name b.name = true) (sortMethodsByName l) := by
  haveI : IsTotal Method (fun a b : Method => strLeB a.name b.name = true) :=
    ⟨fun a b => strLeB_total a.name b.name⟩
  haveI : IsTrans Method (fun a b : Method => strLeB a.name b.name = true) :=
    ⟨fun a b c => strLeB_trans a.name b.name c.name⟩
  exact List.sorted_insertionSort _ l

/-- `sortParameters` sorts ascending by name. -/
theorem sortParameters_sorted (l : List Parameter) :
    List.Sorted (fun a b : Parameter => strLeB a.name b.name = true) (sortParameters l) := by
  haveI : IsTotal Parameter (fun a b : Parameter => strLeB a.name b.name = true) :=
    ⟨fun a b => strLeB_total a.name b.name⟩
  haveI : IsTrans Parameter (fun a b : Parameter => strLeB a.name b.name = true) :=
    ⟨fun a b c => strLeB_trans a.name b.name c.name⟩
  exact List.sorted_insertionSort _ l

/-- A successful lookup's entry is in the list. -/
theorem alookup_mem {α : Type} (l : List (String × α)) (k : String) (v : α)
    (h : alookup l k = some v) : (k, v) ∈ l := by
  induction l with
  | nil => cases h
  | cons kv rest ih =>
      obtain ⟨k₀, v₀⟩ := kv
      by_cases hk : k₀ = k
      · subst hk
        unfold alookup at h
        rw [if_pos rfl] at h
        cases h
        exact List.mem_cons_self _ _
      · unfold alookup at h
        rw [if_neg hk] at h
        exact List.mem_cons_of_mem _ (ih h)

/-- The merged name list has no duplicates. -/
theorem mergedNames_nodup {α : Type} (im om : List (String × α)) :
    (mergedNames im om).Nodup := by
  unfold mergedNames
  exact (sortStrings_perm _).nodup_iff.mpr (List.nodup_dedup _)

/-- The merged name list is sorted ascending. -/
theorem mergedNames_sorted {α : Type} (im om : List (String × α)) :
    List.Sorted (fun a b : String => strLeB a b = true) (mergedNames im om) :=
  sortStrings_sorted _

/-- Merged names are exactly the union of the two key sets. -/
theorem mem_mergedNames {α : Type} (im om : List (String × α)) (n : String) :
    n ∈ mergedNames im om ↔ n ∈ akeys im ∨ n ∈ akeys om := by
  unfold mergedNames
  rw [(sortStrings_perm _).mem_iff, List.mem_dedup, List.mem_append]

/-- When every entry carries its key as its name, the merged view's names
are exactly the merged name list. -/
theorem mergedView_map_name {α : Type} (im om : List (String × α)) (name : α → String)
    (him : ∀ kv ∈ im, name kv.2 = kv.1) (hom : ∀ kv ∈ om, name kv.2 = kv.1) :
    (mergedView im om).map name = mergedNames im om := by
  unfold mergedView
  have general : ∀ l : List String, (∀ n ∈ l, n ∈ akeys im ∨ n ∈ akeys om) →
      (l.filterMap (fun n =>
        match alookup im n with
        | some v => some v
        | none => alookup om n)).map name = l := by
    intro l
    induction l with
    | nil => intro _; rfl
    | cons n rest ih =>
        intro hmem
        have hn := hmem n (List.mem_cons_self _ _)
        have hrest := fun x hx => hmem x (List.mem_cons_of_mem _ hx)
        simp only [List.filterMap_cons]
        cases him' : alookup im n with
        | some v =>
            simp only [List.map_cons]
            rw [him (n, v) (alookup_mem _ _ _ him'), ih hrest]
        | none =>
            have hno : n ∉ akeys im := (alookup_eq_none_iff_not_mem_akeys _ _).mp him'
            have hom' : n ∈ akeys om := by
              rcases hn with h | h
              · exact absurd h hno
              · exact h
            obtain ⟨w, hw⟩ := Option.isSome_iff_exists.mp
              ((alookup_isSome_iff_mem_akeys _ _).mpr hom')
            rw [hw]
            simp only [List.map_cons]
            rw [hom (n, w) (alookup_mem _ _ _ hw), ih hrest]
  refine general _ ?_
  intro n hn
  exact (mem_mergedNames im om n).mp hn

/-! ## InterfaceInfo-level corollaries -/

/-- The input closure satisfies the category invariant. -/
theorem inputClosure_catOK (svc : Service) (int : Interface) :
    CatOK svc (inputClosure svc int) := by
  rw [inputClosure_eq_closureOf]
  exact (closureOf_invariants _ _).2

/-- The output closure satisfies the category invariant. -/
theorem outputClosure_catOK (svc : Service) (int : Interface) :
    CatOK svc (outputClosure svc int) := by
  rw [outputClosure_eq_closureOf]
  exact (closureOf_invariants _ _).2

/-- The input closure's key sets are duplicate-free. -/
theorem inputClosure_nodup (svc : Service) (int : Interface) :
    NodupKeys (inputClosure svc int) := by
  rw [inputClosure_eq_closureOf]
  exact (closureOf_invariants _ _).1

/-- The output closure's key sets are duplicate-free. -/
theorem outputClosure_nodup (svc : Service) (int : Interface) :
    NodupKeys (outputClosure svc int) := by
  rw [outputClosure_eq_closureOf]
  exact (closureOf_invariants _ _).1

/-- The merged `types` getter lists exactly the merged names, via each
entry's own name. -/
theorem typesList_map_name (svc : Service) (int : Interface) :
    ((interfaceInfoOf svc int).typesList).map Typ.name
      = mergedNames (inputClosure svc int).types (outputClosure svc int).types := by
  exact mergedView_map_name _ _ _
    (fun kv hkv => ((inputClosure_catOK svc int).1 kv hkv).1)
    (fun kv hkv => ((outputClosure_catOK svc int).1 kv hkv).1)

/-- The merged `unions` getter lists exactly the merged names. -/
theorem unionsList_map_name (svc : Service) (int : Interface) :
    ((interfaceInfoOf svc int).unionsList).map UnionT.name
      = mergedNames (inputClosure svc int).unions (outputClosure svc int).unions := by
  exact mergedView_map_name _ _ _
    (fun kv hkv => ((inputClosure_catOK svc int).2.1 kv hkv).1)
    (fun kv hkv => ((outputClosure_catOK svc int).2.1 kv hkv).1)

/-- The merged `enums` getter lists exactly the merged names. -/
theorem enumsList_map_name (svc : Service) (int : Interface) :
    ((interfaceInfoOf svc int).enumsList).map Enum.name
      = mergedNames (inputClosure svc int).enums (outputClosure svc int).enums := by
  exact mergedView_map_name _ _ _
    (fun kv hkv => ((inputClosure_catOK svc int).2.2 kv hkv).1)
    (fun kv hkv => ((outputClosure_catOK svc int).2.2 kv hkv).1)

/-- The merged `types` getter is sorted ascending by name. -/
theorem typesList_sorted (svc : Service) (int : Interface) :
    List.Sorted (fun a b : Typ => strLeB a.name b.name = true)
      ((interfaceInfoOf svc int).typesList) := by
  have hmap := typesList_map_name svc int
  have hsorted := mergedNames_sorted
    (inputClosure svc int).types (outputClosure svc int).types
  rw [← hmap] at hsorted
  exact (List.pairwise_map).mp hsorted

/-- The merged `unions` getter is sorted ascending by name. -/
theorem unionsList_sorted (svc : Service) (int : Interface) :
    List.Sorted (fun a b : UnionT => strLeB a.name b.name = true)
      ((interfaceInfoOf svc int).unionsList) := by
  have hmap := unionsList_map_name svc int
  have hsorted := mergedNames_sorted
    (inputClosure svc int).unions (outputClosure svc int).unions
  rw [← hmap] at hsorted
  exact (List.pairwise_map).mp hsorted

/-- The merged `enums` getter is sorted ascending by name. -/
theorem enumsList_sorted (svc : Service) (int : Interface) :
    List.Sorted (fun a b : Enum => strLeB a.name b.name = true)
      ((interfaceInfoOf svc int).enumsList) := by
  have hmap := enumsList_map_name svc int
  have hsorted := mergedNames_sorted
    (inputClosure svc int).enums (outputClosure svc int).enums
  rw [← hmap] at hsorted
  exact (List.pairwise_map).mp hsorted

/-- The merged `types` getter holds exactly one instance per name. -/
theorem typesList_names_nodup (svc : Service) (int : Interface) :
    (((interfaceInfoOf svc int).typesList).map Typ.name).Nodup := by
  rw [typesList_map_name]
  exact mergedNames_nodup _ _

/-- The merged `unions` getter holds exactly one instance per name. -/
theorem unionsList_names_nodup (svc : Service) (int : Interface) :
    (((interfaceInfoOf svc int).unionsList).map UnionT.name).Nodup := by
  rw [unionsList_map_name]
  exact mergedNames_nodup _ _

/-- The merged `enums` getter holds exactly one instance per name. -/
theorem enumsList_names_nodup (svc : Service) (int : Interface) :
    (((interfaceInfoOf svc int).enumsList).map Enum.name).Nodup := by
  rw [enumsList_map_name]
  exact mergedNames_nodup _ _

/-- A name appears in the merged `types` getter exactly when it appears in
either directional type map. -/
theorem typesList_mem_names (svc : Service) (int : Interface) (n : String) :
    n ∈ ((interfaceInfoOf svc int).typesList).map Typ.name
      ↔ n ∈ akeys (inputClosure svc int).types
          ∨ n ∈ akeys (outputClosure svc int).types := by
  rw [typesList_map_name]
  exact mem_mergedNames _ _ n

/-! ## Casing lemmas for anchor consistency -/

/-- Evaluated facts about the lowercase alphanumeric characters. -/
theorem lowerAlnumChars_facts : ∀ c ∈ lowerAlnumChars,
    c.isAlphanum = true ∧ c.isUpper = false
      ∧ Char.toLower c = c ∧ Char.toLower (Char.toUpper c) = c := by decide

/-- Mapping a function that fixes every element is the identity. -/
theorem map_eq_self_of_forall {α : Type} (l : List α) (f : α → α)
    (h : ∀ a ∈ l, f a = a) : l.map f = l := by
  induction l with
  | nil => rfl
  | cons x xs ih =>
      rw [List.map_cons, h x (List.mem_cons_self _ _),
        ih (fun a ha => h a (List.mem_cons_of_mem _ ha))]

/-- `String.mk` of a string's data is the string. -/
theorem string_eta (s : String) : String.mk s.data = s := rfl

/-- Word splitting never splits inside lowercase alphanumerics. -/
theorem splitWordsGo_single : ∀ (cs cur : List Char),
    (∀ c ∈ cs, c ∈ lowerAlnumChars) → cur ≠ [] →
    splitWordsGo cs cur = [String.mk (cur.reverse ++ cs)] := by
  intro cs
  induction cs with
  | nil =>
      intro cur _ hcur
      simp only [splitWordsGo]
      rw [if_neg hcur]
      simp
  | cons c cs' ih =>
      intro cur hmem hcur
      have hc := lowerAlnumChars_facts c (hmem c (List.mem_cons_self _ _))
      simp only [splitWordsGo]
      rw [if_pos hc.1, if_neg (by rw [hc.2.1]; simp)]
      rw [ih (c :: cur) (fun x hx => hmem x (List.mem_cons_of_mem _ hx)) (by simp)]
      rw [List.reverse_cons, List.append_assoc]
      rfl

/-- A nonempty all-lowercase-alphanumeric string is a single case word. -/
theorem splitWords_lower (s : String) (h : ∀ c ∈ s.data, c ∈ lowerAlnumChars)
    (hne : s.data ≠ []) : splitWords s = [s] := by
  unfold splitWords
  cases hd : s.data with
  | nil => exact absurd hd hne
  | cons c cs =>
      have hc := lowerAlnumChars_facts c (h c (hd ▸ List.mem_cons_self _ _))
      have hmem : ∀ x ∈ cs, x ∈ lowerAlnumChars :=
        fun x hx => h x (hd ▸ List.mem_cons_of_mem _ hx)
      simp only [splitWordsGo]
      rw [if_pos hc.1, if_neg (by simp)]
      rw [splitWordsGo_single cs [c] hmem (by simp)]
      rw [show ([c] : List Char).reverse ++ cs = c :: cs from by simp, ← hd, string_eta]

/-- Pascal-casing a nonempty all-lowercase-alphanumeric string only
capitalizes it. -/
theorem pascal_lower (s : String) (h : ∀ c ∈ s.data, c ∈ lowerAlnumChars)
    (hne : s.data ≠ []) : pascal s = capitalizeWord s := by
  unfold pascal
  rw [splitWords_lower s h hne]
  unfold strConcat
  simp [string_eta]

/-- Lowercasing undoes the capitalization of an all-lowercase-alphanumeric
string. -/
theorem lowerString_capitalize (s : String) (h : ∀ c ∈ s.data, c ∈ lowerAlnumChars) :
    lowerString (capitalizeWord s) = lowerString s := by
  unfold lowerString capitalizeWord
  cases hd : s.data with
  | nil => rfl
  | cons c cs =>
      have hc := lowerAlnumChars_facts c (h c (hd ▸ List.mem_cons_self _ _))
      have hmem : ∀ x ∈ cs, x ∈ lowerAlnumChars :=
        fun x hx => h x (hd ▸ List.mem_cons_of_mem _ hx)
      have htail : cs.map Char.toLower = cs :=
        map_eq_self_of_forall cs Char.toLower
          (fun a ha => (lowerAlnumChars_facts a (hmem a ha)).2.2.1)
      simp only [List.map_cons]
      congr 1
      rw [hc.2.2.2, hc.2.2.1, htail, htail]

/-- The anchor of the pascal-cased display equals the anchor of the raw
name whenever the raw name is all lowercase alphanumerics. -/
theorem anchor_pascal_eq_of_lower (s : String) (h : ∀ c ∈ s.data, c ∈ lowerAlnumChars) :
    anchor (pascal s) = anchor s := by
  by_cases hne : s.data = []
  · obtain ⟨d⟩ := s
    have hd : d = [] := hne
    subst hd
    rfl
  · unfold anchor
    rw [pascal_lower s h hne, lowerString_capitalize s h]

/-! ## Bridge lemmas for the claims -/

/-- A name is visited in a root-list closure exactly when it resolves and
is reachable from a root. -/
theorem closureOf_visited_iff (svc : Service) (roots : List String) (n : String) :
    visitedIn (closureOf svc roots) n = true
      ↔ (resolves svc n = true ∧ ∃ r ∈ roots, Reach svc r n) := by
  constructor
  · intro h
    rcases closure_sound svc roots DirMaps.empty n h with h0 | ⟨r, hr, hre, hres⟩
    · rw [visitedIn_empty] at h0
      cases h0
    · exact ⟨hres, r, hr, hre⟩
  · rintro ⟨hres, r, hr, hre⟩
    exact closure_complete svc roots r n hr hre hres

/-- Nothing is reachable from a childless name but the name itself. -/
theorem reach_of_no_children (svc : Service) (a : String)
    (h : childNames svc a = []) : ∀ b, Reach svc a b → b = a := by
  intro b hre
  induction hre with
  | refl => rfl
  | step hab hmem ih =>
      rw [ih] at hmem
      rw [h] at hmem
      exact absurd hmem (List.not_mem_nil _)

/-- Traversing an unvisited name that resolves to a type puts the type
under that name and leaves the other two maps unchanged at that name. -/
theorem traverseD_priority_type (svc : Service) (n : String) (d : DirMaps)
    (hvf : visitedIn d n = false) (k : Nat) (t : Typ)
    (hty : getTypeByName svc n = some t) :
    alookup (traverseD svc (k + 1) n d).types n = some t
    ∧ alookup (traverseD svc (k + 1) n d).unions n = alookup d.unions n
    ∧ alookup (traverseD svc (k + 1) n d).enums n = alookup d.enums n := by
  simp only [traverseD]
  rw [if_neg (by simp [hvf])]
  cases hty2 : getTypeByName svc n with
  | none =>
      rw [hty2] at hty
      cases hty
  | some t' =>
      rw [hty2] at hty
      injection hty with ht'
      subst ht'
      refine foldl_preserve (P := fun (acc : DirMaps) =>
        alookup acc.types n = some t' ∧ alookup acc.unions n = alookup d.unions n
          ∧ alookup acc.enums n = alookup d.enums n) ?_ _ _
        ⟨alookup_aset_self _ _ _, rfl, rfl⟩
      intro acc p hP
      by_cases hp : p.isPrimitive = true
      · rw [if_pos hp]
        exact hP
      · rw [if_neg hp]
        have hvacc : visitedIn acc n = true := by
          unfold visitedIn
          rw [hP.1]
          rfl
        obtain ⟨e1, e2, e3⟩ := lookup_frozen svc k p.typeName acc n hvacc
        exact ⟨e1.trans hP.1, e2.trans hP.2.1, e3.trans hP.2.2⟩

/-- Traversing an unvisited name with no type but a union puts the union
under that name and leaves the other two maps unchanged at that name. -/
theorem traverseD_priority_union (svc : Service) (n : String) (d : DirMaps)
    (hvf : visitedIn d n = false) (k : Nat) (u : UnionT)
    (hty : getTypeByName svc n = none) (hun : getUnionByName svc n = some u) :
    alookup (traverseD svc (k + 1) n d).unions n = some u
    ∧ alookup (traverseD svc (k + 1) n d).types n = alookup d.types n
    ∧ alookup (traverseD svc (k + 1) n d).enums n = alookup d.enums n := by
  simp only [traverseD]
  rw [if_neg (by simp [hvf]), hty]
  cases hun2 : getUnionByName svc n with
  | none =>
      rw [hun2] at hun
      cases hun
  | some u' =>
      rw [hun2] at hun
      injection hun with hu'
      subst hu'
      refine foldl_preserve (P := fun (acc : DirMaps) =>
        alookup acc.unions n = some u' ∧ alookup acc.types n = alookup d.types n
          ∧ alookup acc.enums n = alookup d.enums n) ?_ _ _
        ⟨alookup_aset_self _ _ _, rfl, rfl⟩
      intro acc mv hP
      have hvacc : visitedIn acc n = true := by
        unfold visitedIn
        rw [hP.1]
        simp
      obtain ⟨e1, e2, e3⟩ := lookup_frozen svc k mv.typeName acc n hvacc
      exact ⟨e2.trans hP.1, e1.trans hP.2.1, e3.trans hP.2.2⟩

/-- Traversing an unvisited name with no type or union but an enum puts the
enum under that name and leaves the other two maps unchanged at it. -/
theorem traverseD_priority_enum (svc : Service) (n : String) (d : DirMaps)
    (hvf : visitedIn d n = false) (k : Nat) (e : Enum)
    (hty : getTypeByName svc n = none) (hun : getUnionByName svc n = none)
    (hen : getEnumByName svc n = some e) :
    alookup (traverseD svc (k + 1) n d).enums n = some e
    ∧ alookup (traverseD svc (k + 1) n d).types n = alookup d.types n
    ∧ alookup (traverseD svc (k + 1) n d).unions n = alookup d.unions n := by
  simp only [traverseD]
  rw [if_neg (by simp [hvf]), hty, hun]
  cases hen2 : getEnumByName svc n with
  | none =>
      rw [hen2] at hen
      cases hen
  | some e' =>
      rw [hen2] at hen
      injection hen with he'
      subst he'
      exact ⟨alookup_aset_self _ _ _, rfl, rfl⟩

/-- A name appears in the merged `unions` getter exactly when it appears in
either directional union map. -/
theorem unionsList_mem_names (svc : Service) (int : Interface) (n : String) :
    n ∈ ((interfaceInfoOf svc int).unionsList).map UnionT.name
      ↔ n ∈ akeys (inputClosure svc int).unions
          ∨ n ∈ akeys (outputClosure svc int).unions := by
  rw [unionsList_map_name]
  exact mem_mergedNames _ _ n

/-- A name appears in the merged `enums` getter exactly when it appears in
either directional enum map. -/
theorem enumsList_mem_names (svc : Service) (int : Interface) (n : String) :
    n ∈ ((interfaceInfoOf svc int).enumsList).map Enum.name
      ↔ n ∈ akeys (inputClosure svc int).enums
          ∨ n ∈ akeys (outputClosure svc int).enums := by
  rw [enumsList_map_name]
  exact mem_mergedNames _ _ n

/-! ## Claim theorems -/

/-- C1: for every service and interface — including type graphs with direct
or transitive cycles — the closure traversal terminates: any fuel at or
above `bound svc` computes the same fixed result, so the embedded recursion
is bounded by the visited set exactly as in the source; each directional
closure map contains any given name at most once; and the self-referential
`Node` scenario yields an input type set containing exactly `Node` and an
empty output type set. -/
theorem C1_cycle_safe_termination :
    (∀ (svc : Service) (fuel : Nat) (n : String) (d : DirMaps),
      bound svc ≤ fuel → traverseD svc fuel n d = traverseTop svc n d)
    ∧ (∀ (svc : Service) (int : Interface),
        NodupKeys (inputClosure svc int) ∧ NodupKeys (outputClosure svc int))
    ∧ ((inputClosure nodeService nodeInterface).types = [("Node", nodeTyp)]
        ∧ (outputClosure nodeService nodeInterface).types = []) := by
  refine ⟨?_, ?_, rfl, rfl⟩
  · intro svc fuel n d hf
    exact traverseD_fuel_congr svc fuel (bound svc) n d
      (lt_of_lt_of_le (unvisitedCount_lt_bound svc d) hf)
      (unvisitedCount_lt_bound svc d)
  · intro svc int
    exact ⟨inputClosure_nodup svc int, outputClosure_nodup svc int⟩

/-- Witness for C1 at a concrete input: extra fuel changes nothing on the
cyclic `Node` service, whose closure also has duplicate-free keys. -/
theorem C1_cycle_safe_termination_witness :
    traverseD nodeService (bound nodeService + 7) "Node" DirMaps.empty
      = traverseTop nodeService "Node" DirMaps.empty
    ∧ NodupKeys (inputClosure nodeService nodeInterface) :=
  ⟨C1_cycle_safe_termination.1 nodeService (bound nodeService + 7) "Node" DirMaps.empty
      (Nat.le_add_right _ _),
    (C1_cycle_safe_termination.2.1 nodeService nodeInterface).1⟩

/-- C3 (counterexample): in a service where the name `x` is present in both
the enum and the union maps, the traversal resolves `x` to the union, not
the enum — the enum map stays empty. -/
theorem C3_priority_counterexample :
    getEnumByName collideService "x" = some xEnum
    ∧ getUnionByName collideService "x" = some xUnion
    ∧ (traverseTop collideService "x" DirMaps.empty).unions = [("x", xUnion)]
    ∧ (traverseTop collideService "x" DirMaps.empty).enums = [] :=
  ⟨rfl, rfl, rfl, rfl⟩

/-- C3 (amended): resolution priority is Type, then Union, then Enum. A
name with a type always lands in the type map and in neither other map; a
name with no type but a union lands in the union map; only a name with
neither type nor union lands in the enum map. -/
theorem C3_resolution_priority (svc : Service) (n : String) (d : DirMaps)
    (hvf : visitedIn d n = false) :
    (∀ t, getTypeByName svc n = some t →
      alookup (traverseTop svc n d).types n = some t
        ∧ alookup (traverseTop svc n d).unions n = none
        ∧ alookup (traverseTop svc n d).enums n = none)
    ∧ (∀ u, getTypeByName svc n = none → getUnionByName svc n = some u →
        alookup (traverseTop svc n d).unions n = some u
          ∧ alookup (traverseTop svc n d).types n = none
          ∧ alookup (traverseTop svc n d).enums n = none)
    ∧ (∀ e, getTypeByName svc n = none → getUnionByName svc n = none →
        getEnumByName svc n = some e →
        alookup (traverseTop svc n d).enums n = some e
          ∧ alookup (traverseTop svc n d).types n = none
          ∧ alookup (traverseTop svc n d).unions n = none) := by
  obtain ⟨hp1, hp2, hp3⟩ := visitedIn_false_parts d n hvf
  refine ⟨?_, ?_, ?_⟩
  · intro t hty
    obtain ⟨e1, e2, e3⟩ :=
      traverseD_priority_type svc n d hvf (allEntityNames svc).dedup.length t hty
    exact ⟨e1, e2.trans hp2, e3.trans hp3⟩
  · intro u hty hun
    obtain ⟨e1, e2, e3⟩ :=
      traverseD_priority_union svc n d hvf (allEntityNames svc).dedup.length u hty hun
    exact ⟨e1, e2.trans hp1, e3.trans hp3⟩
  · intro e hty hun hen
    obtain ⟨e1, e2, e3⟩ :=
      traverseD_priority_enum svc n d hvf (allEntityNames svc).dedup.length e hty hun hen
    exact ⟨e1, e2.trans hp1, e3.trans hp2⟩

/-- Witness for the amended C3 at the collision service: the union wins
over the enum for the name `x`. -/
theorem C3_resolution_priority_witness :
    alookup (traverseTop collideService "x" DirMaps.empty).unions "x" = some xUnion
    ∧ alookup (traverseTop collideService "x" DirMaps.empty).enums "x" = none := by
  have h := (C3_resolution_priority collideService "x" DirMaps.empty rfl).2.1
    xUnion rfl rfl
  exact ⟨h.1, h.2.2⟩

/-- C7: each of the eleven recognized validation-rule kinds renders exactly
its fixed bullet with the parameter substituted verbatim, any other rule id
renders nothing, and rules render in declared order (the output for a list
is the concatenation of the per-rule outputs). -/
theorem C7_validation_rule_table :
    (∀ v, buildRules [ValidationRule.arrayMaxItems v]
        = ["  - Max array length: `" ++ v ++ "`"])
    ∧ (∀ v, buildRules [ValidationRule.arrayMinItems v]
        = ["  - Min array length: `" ++ v ++ "`"])
    ∧ (buildRules [ValidationRule.arrayUniqueItems] = ["  - Values must be unique"])
    ∧ (∀ v, buildRules [ValidationRule.numberGT v]
        = ["  - Must be greater than `" ++ v ++ "`"])
    ∧ (∀ v, buildRules [ValidationRule.numberGTE v]
        = ["  - Must be greater than or equal to `" ++ v ++ "`"])
    ∧ (∀ v, buildRules [ValidationRule.numberLT v]
        = ["  - Must be less than `" ++ v ++ "`"])
    ∧ (∀ v, buildRules [ValidationRule.numberLTE v]
        = ["  - Must be less than or equal to `" ++ v ++ "`"])
    ∧ (∀ v, buildRules [ValidationRule.numberMultipleOf v]
        = ["  - Must be a multiple of `" ++ v ++ "`"])
    ∧ (∀ v, buildRules [ValidationRule.stringMaxLength v]
        = ["  - Max length: `" ++ v ++ "`"])
    ∧ (∀ v, buildRules [ValidationRule.stringMinLength v]
        = ["  - Min length: `" ++ v ++ "`"])
    ∧ (∀ v, buildRules [ValidationRule.stringPattern v]
        = ["  - Must match pattern: `" ++ v ++ "`"])
    ∧ (∀ id, buildRules [ValidationRule.otherRule id] = [])
    ∧ (∀ r rs, buildRules (r :: rs) = buildRules [r] ++ buildRules rs) := by
  refine ⟨fun v => rfl, fun v => rfl, rfl, fun v => rfl, fun v => rfl, fun v => rfl,
    fun v => rfl, fun v => rfl, fun v => rfl, fun v => rfl, fun v => rfl,
    fun id => rfl, ?_⟩
  intro r rs
  cases r <;> simp [buildRules]

/-- C9: the closure resolver and the document renderer are pure functions
of the (service, interface) pair — repeated invocations on identical inputs
produce equal closure sets and identical line sequences; the embedding
holds no state outside its arguments. -/
theorem C9_determinism (svc : Service) (int : Interface) :
    buildInterfaceDocs svc int = buildInterfaceDocs svc int
    ∧ interfaceInfoOf svc int = interfaceInfoOf svc int
    ∧ generateDocs svc = generateDocs svc :=
  ⟨rfl, rfl, rfl⟩

/-- C10: a method with an empty parameter list renders its signature as
exactly the built method name — no parentheses, no parameter braces, no
optionality marker — and the parenthesized parameter-object form (with the
`| undefined` marker exactly when no parameter is required) appears only
for methods with parameters; concrete signatures confirm each shape. -/
theorem C10_signature_shapes :
    (∀ m : Method, m.parameters = [] → buildMethodDefinition m = buildMethodName m)
    ∧ (∀ m : Method, m.parameters ≠ [] → ∃ inner : String,
        buildMethodDefinition m
          = buildMethodName m ++ "(\x7b" ++ inner ++ "\x7d"
              ++ (if hasRequiredParams m then "" else " | undefined") ++ ")")
    ∧ buildMethodDefinition noParamsMethod = "ping"
    ∧ buildMethodDefinition optParamMethod = "list(\x7blimit?\x7d | undefined)"
    ∧ buildMethodDefinition createMethod = "create(\x7binput\x7d)" := by
  refine ⟨?_, ?_, rfl, rfl, rfl⟩
  · intro m hm
    unfold buildMethodDefinition
    rw [hm]
    simp
  · intro m hm
    refine ⟨joinSep ", " ((sortParameters m.parameters).map
      (fun param => buildParameterName param
        ++ (if param.isRequired then "" else "?"))), ?_⟩
    unfold buildMethodDefinition
    rw [if_neg (by simp [hm])]
    simp [String.append_assoc]

/-- Witness for C10 on concrete methods with and without parameters. -/
theorem C10_signature_shapes_witness :
    buildMethodDefinition noParamsMethod = buildMethodName noParamsMethod
    ∧ ∃ inner : String,
        buildMethodDefinition optParamMethod
          = buildMethodName optParamMethod ++ "(\x7b" ++ inner ++ "\x7d"
              ++ (if hasRequiredParams optParamMethod then "" else " | undefined")
              ++ ")" :=
  ⟨C10_signature_shapes.1 noParamsMethod rfl,
    C10_signature_shapes.2.1 optParamMethod (by decide)⟩

/-- C4: every collection exposed by the closure resolver (the directional
and merged getters for types and unions, and the merged enums getter — the
source exposes no directional enum getters) is sorted ascending by entity
name; the methods, closure types and closure enums used by the table of
contents and the document sections are sorted ascending by name; and the
properties rendered within a type section appear in their declared order,
not resorted. -/
theorem C4_ordering (svc : Service) (int : Interface) :
    List.Sorted (fun a b : Typ => strLeB a.name b.name = true)
      ((interfaceInfoOf svc int).typesList)
    ∧ List.Sorted (fun a b : Typ => strLeB a.name b.name = true)
        ((interfaceInfoOf svc int).inputTypes)
    ∧ List.Sorted (fun a b : Typ => strLeB a.name b.name = true)
        ((interfaceInfoOf svc int).outputTypes)
    ∧ List.Sorted (fun a b : UnionT => strLeB a.name b.name = true)
        ((interfaceInfoOf svc int).unionsList)
    ∧ List.Sorted (fun a b : UnionT => strLeB a.name b.name = true)
        ((interfaceInfoOf svc int).inputUnions)
    ∧ List.Sorted (fun a b : UnionT => strLeB a.name b.name = true)
        ((interfaceInfoOf svc int).outputUnions)
    ∧ List.Sorted (fun a b : Enum => strLeB a.name b.name = true)
        ((interfaceInfoOf svc int).enumsList)
    ∧ List.Sorted (fun a b : Method => strLeB a.name b.name = true) (builderMethods int)
    ∧ List.Sorted (fun a b : Typ => strLeB a.name b.name = true) (builderTypes svc int)
    ∧ List.Sorted (fun a b : Enum => strLeB a.name b.name = true) (builderEnums svc int)
    ∧ (∀ t : Typ, ∃ pre post : List String,
        buildTypeDocs svc t = pre ++ t.properties.flatMap (buildProperty svc) ++ post) := by
  refine ⟨typesList_sorted svc int, sortTypsByName_sorted _, sortTypsByName_sorted _,
    unionsList_sorted svc int, sortUnionsByName_sorted _, sortUnionsByName_sorted _,
    enumsList_sorted svc int, sortMethodsByName_sorted _, sortTypsByName_sorted _,
    sortEnumsByName_sorted _, ?_⟩
  intro t
  by_cases hp : t.properties.isEmpty = true
  · exact ⟨buildTypeDocs svc t, [], by
      rw [List.isEmpty_iff.mp hp]
      simp⟩
  · refine ⟨["### " ++ pascal t.name, "", "`" ++ pascal t.name ++ "`"]
        ++ t.description.flatMap (fun line => ["", line]) ++ [""],
      (match t.mapProperties with
        | some mp =>
            ["", "#### Map Properties", "",
              "- Keys: " ++ linkedTypeName svc mp.key,
              "- Values: " ++ linkedTypeName svc mp.value]
        | none => []) ++ [""], ?_⟩
    unfold buildTypeDocs
    rw [if_neg hp]
    simp

/-- C5 (counterexample): for a type whose raw IR name contains a space, the
table-of-contents anchor (computed from the raw name) does not match the
anchor derived from the rendered heading's display name (the pascal-cased
name): the TOC links `#foo-bar` while the heading `FooBar` anchors as
`#foobar`. -/
theorem C5_anchor_counterexample :
    buildToc fooBarService fooBarInterface
      = ["- Methods", "  - [get](#get)", "- Types", "  - [FooBar](#foo-bar)"]
    ∧ (buildTypeDocs fooBarService fooBarTyp).head? = some "### FooBar"
    ∧ anchor (pascal fooBarTyp.name) = "#foobar"
    ∧ anchor fooBarTyp.name = "#foo-bar"
    ∧ anchor (pascal fooBarTyp.name) ≠ anchor fooBarTyp.name :=
  ⟨rfl, rfl, rfl, rfl, by decide⟩

/-- C5 (amended): method-section anchors always resolve, since the TOC
target and the heading display both derive from the built method name; for
type and enum sections the TOC target is computed from the raw IR name
while the heading displays the pascal-cased name, and the two anchors agree
whenever the raw name consists only of lowercase letters and digits (they
can differ otherwise, e.g. for names containing spaces). -/
theorem C5_anchor_consistency :
    (∀ m : Method, anchor (buildMethodName m) = anchor (buildMethodName m))
    ∧ (∀ t : Typ, (∀ c ∈ t.name.data, c ∈ lowerAlnumChars) →
        anchor (pascal t.name) = anchor t.name)
    ∧ (∀ e : Enum, (∀ c ∈ e.name.data, c ∈ lowerAlnumChars) →
        anchor (pascal e.name) = anchor e.name) :=
  ⟨fun _ => rfl,
    fun t h => anchor_pascal_eq_of_lower t.name h,
    fun e h => anchor_pascal_eq_of_lower e.name h⟩

/-- Witness for the amended C5: the lowercase type name `cat` anchors
identically from the raw name and from its pascal-cased heading display. -/
theorem C5_anchor_consistency_witness :
    anchor (pascal catTyp.name) = anchor catTyp.name :=
  C5_anchor_consistency.2.1 catTyp (by decide)

/-- C6: a reference resolving to a union renders as its members' linked
names joined with a bar — no anchor is attached at the union level (the
result is exactly the join, parenthesized with a single trailing array
suffix exactly when the reference is an array); each non-union non-primitive
member renders with its own anchor; and the `cat | dog` scenario renders two
separate member anchors, with the array form parenthesized and suffixed
once. -/
theorem C6_union_flattening :
    (∀ (svc : Service) (p : TypedValue) (u : UnionT) (fuel : Nat),
      getUnionByName svc p.typeName = some u →
      buildLinkedTypeName svc (fuel + 1) p
        = (if p.isArray then
            "(" ++ joinSep " | " (u.members.map (buildLinkedTypeName svc fuel)) ++ ")[]"
          else joinSep " | " (u.members.map (buildLinkedTypeName svc fuel))))
    ∧ (∀ (svc : Service) (mv : TypedValue) (fuel : Nat),
        getUnionByName svc mv.typeName = none → mv.isPrimitive = false →
        mv.isArray = false →
        buildLinkedTypeName svc (fuel + 1) mv
          = "[&lt;" ++ buildTypeNameStripped mv ++ "&gt;]("
              ++ anchor (buildTypeNameStripped mv) ++ ")")
    ∧ linkedTypeName petService petParam = "[&lt;Cat&gt;](#cat) | [&lt;Dog&gt;](#dog)"
    ∧ linkedTypeName petService petArrayParam
        = "([&lt;Cat&gt;](#cat) | [&lt;Dog&gt;](#dog))[]" := by
  refine ⟨?_, ?_, by decide, by decide⟩
  · intro svc p u fuel hu
    simp only [buildLinkedTypeName]
    cases hu2 : getUnionByName svc p.typeName with
    | none =>
        rw [hu2] at hu
        cases hu
    | some u' =>
        rw [hu2] at hu
        injection hu with hu'
        subst hu'
        rfl
  · intro svc mv fuel hu hprim harr
    simp only [buildLinkedTypeName]
    rw [hu]
    simp [hprim, harr]

/-- Witness for C6 at the `pet` union and a dangling-free member. -/
theorem C6_union_flattening_witness :
    buildLinkedTypeName petService (petService.unions.length + 1) petParam
      = joinSep " | "
          (petUnion.members.map (buildLinkedTypeName petService petService.unions.length))
    ∧ buildLinkedTypeName petService 1 ⟨"cat", false, false⟩
        = "[&lt;" ++ buildTypeNameStripped (⟨"cat", false, false⟩ : TypedValue)
            ++ "&gt;](" ++ anchor (buildTypeNameStripped
              (⟨"cat", false, false⟩ : TypedValue)) ++ ")" := by
  constructor
  · have h := C6_union_flattening.1 petService petParam petUnion
      petService.unions.length rfl
    simpa using h
  · exact C6_union_flattening.2.1 petService ⟨"cat", false, false⟩ 0 rfl rfl rfl

/-- C8: a type-reference name resolving to no type, enum or union never
errors: the traversal adds nothing for it (for any fuel) and continues; the
renderer renders it as a plain linked display built from the referenced
name; and a service consisting entirely of dangling references still
produces its complete document. -/
theorem C8_dangling_tolerance :
    (∀ (svc : Service) (fuel : Nat) (n : String) (d : DirMaps),
      resolves svc n = false → traverseD svc fuel n d = d)
    ∧ (∀ (svc : Service) (p : TypedValue) (fuel : Nat),
        getTypeByName svc p.typeName = none → getEnumByName svc p.typeName = none →
        getUnionByName svc p.typeName = none → p.isPrimitive = false →
        p.isArray = false →
        buildLinkedTypeName svc (fuel + 1) p
          = "[&lt;" ++ buildTypeNameStripped p ++ "&gt;]("
              ++ anchor (buildTypeNameStripped p) ++ ")")
    ∧ buildInterfaceDocs ghostService ghostInterface
        = ["<!--", "--->", "", "# Spooky Service", "", "- Methods",
            "  - [haunt](#haunt)", "", "## Methods", "", "### haunt", "",
            "`haunt(\x7bg\x7d)`", "", "- `g` [&lt;Ghost&gt;](#ghost)", ""] := by
  refine ⟨?_, ?_, by decide⟩
  · intro svc fuel n d hres
    cases fuel with
    | zero => rfl
    | succ k =>
        simp only [traverseD]
        by_cases hv : visitedIn d n = true
        · rw [if_pos hv]
        · rw [if_neg hv]
          unfold resolves at hres
          have h1 := Bool.or_eq_false_iff.mp hres
          have h2 := Bool.or_eq_false_iff.mp h1.1
          rw [isSome_false_eq_none _ h2.1, isSome_false_eq_none _ h2.2,
            isSome_false_eq_none _ h1.2]
  · intro svc p fuel _ _ hu hprim harr
    simp only [buildLinkedTypeName]
    rw [hu]
    simp [hprim, harr]

/-- Witness for C8: traversing the dangling name `ghost` from the empty
state changes nothing, and the dangling reference renders with a plain
anchored display. -/
theorem C8_dangling_tolerance_witness :
    traverseD ghostService (bound ghostService) "ghost" DirMaps.empty = DirMaps.empty
    ∧ buildLinkedTypeName ghostService 1 ⟨"ghost", false, false⟩
        = "[&lt;" ++ buildTypeNameStripped (⟨"ghost", false, false⟩ : TypedValue)
            ++ "&gt;](" ++ anchor (buildTypeNameStripped
              (⟨"ghost", false, false⟩ : TypedValue)) ++ ")" :=
  ⟨C8_dangling_tolerance.1 ghostService (bound ghostService) "ghost" DirMaps.empty rfl,
    C8_dangling_tolerance.2.1 ghostService ⟨"ghost", false, false⟩ 0 rfl rfl rfl rfl rfl⟩

/-- C2: an entity reachable only from method parameters is recorded in the
input closure — in its category's map — and nowhere in the output closure;
an entity reachable only from return values is recorded in the output
closure and nowhere in the input closure; the merged view of each category
contains exactly one instance per name and is exactly the union of the two
directional name sets; and the `create(Widget): WidgetReceipt` scenario
yields input types `[Widget]`, output types `[WidgetReceipt]`, and merged
types `[Widget, WidgetReceipt]`. -/
theorem C2_directional_partitioning :
    (∀ (svc : Service) (int : Interface) (n : String),
      ReachableFromInput svc int n → ¬ ReachableFromOutput svc int n →
      resolves svc n = true →
        visitedIn (inputClosure svc int) n = true
        ∧ visitedIn (outputClosure svc int) n = false
        ∧ (∀ t, getTypeByName svc n = some t →
            n ∈ akeys (inputClosure svc int).types
              ∧ n ∉ akeys (outputClosure svc int).types))
    ∧ (∀ (svc : Service) (int : Interface) (n : String),
        ReachableFromOutput svc int n → ¬ ReachableFromInput svc int n →
        resolves svc n = true →
          visitedIn (outputClosure svc int) n = true
          ∧ visitedIn (inputClosure svc int) n = false
          ∧ (∀ t, getTypeByName svc n = some t →
              n ∈ akeys (outputClosure svc int).types
                ∧ n ∉ akeys (inputClosure svc int).types))
    ∧ (∀ (svc : Service) (int : Interface),
        (((interfaceInfoOf svc int).typesList).map Typ.name).Nodup
        ∧ (((interfaceInfoOf svc int).unionsList).map UnionT.name).Nodup
        ∧ (((interfaceInfoOf svc int).enumsList).map Enum.name).Nodup
        ∧ (∀ n, n ∈ ((interfaceInfoOf svc int).typesList).map Typ.name
            ↔ n ∈ akeys (inputClosure svc int).types
                ∨ n ∈ akeys (outputClosure svc int).types)
        ∧ (∀ n, n ∈ ((interfaceInfoOf svc int).unionsList).map UnionT.name
            ↔ n ∈ akeys (inputClosure svc int).unions
                ∨ n ∈ akeys (outputClosure svc int).unions)
        ∧ (∀ n, n ∈ ((interfaceInfoOf svc int).enumsList).map Enum.name
            ↔ n ∈ akeys (inputClosure svc int).enums
                ∨ n ∈ akeys (outputClosure svc int).enums))
    ∧ ((interfaceInfoOf widgetService widgetInterface).inputTypes = [widgetTyp]
        ∧ (interfaceInfoOf widgetService widgetInterface).outputTypes
            = [widgetReceiptTyp]
        ∧ (interfaceInfoOf widgetService widgetInterface).typesList
            = [widgetTyp, widgetReceiptTyp]) := by
  refine ⟨?_, ?_, ?_, by decide, by decide, by decide⟩
  · intro svc int n hin hout hres
    rw [inputClosure_eq_closureOf, outputClosure_eq_closureOf]
    refine ⟨(closureOf_visited_iff svc _ n).mpr ⟨hres, hin⟩, ?_, ?_⟩
    · cases hv : visitedIn (closureOf svc (outputRoots int)) n with
      | false => rfl
      | true =>
          obtain ⟨_, hreach⟩ := (closureOf_visited_iff svc _ n).mp hv
          exact absurd hreach hout
    · intro t hty
      constructor
      · exact (closure_types_mem_iff svc _ n).mpr ⟨by rw [hty]; rfl, hin⟩
      · intro hmem
        obtain ⟨_, hreach⟩ := (closure_types_mem_iff svc _ n).mp hmem
        exact absurd hreach hout
  · intro svc int n hin hout hres
    rw [inputClosure_eq_closureOf, outputClosure_eq_closureOf]
    refine ⟨(closureOf_visited_iff svc _ n).mpr ⟨hres, hin⟩, ?_, ?_⟩
    · cases hv : visitedIn (closureOf svc (inputRoots int)) n with
      | false => rfl
      | true =>
          obtain ⟨_, hreach⟩ := (closureOf_visited_iff svc _ n).mp hv
          exact absurd hreach hout
    · intro t hty
      constructor
      · exact (closure_types_mem_iff svc _ n).mpr ⟨by rw [hty]; rfl, hin⟩
      · intro hmem
        obtain ⟨_, hreach⟩ := (closure_types_mem_iff svc _ n).mp hmem
        exact absurd hreach hout
  · intro svc int
    exact ⟨typesList_names_nodup svc int, unionsList_names_nodup svc int,
      enumsList_names_nodup svc int,
      fun n => typesList_mem_names svc int n,
      fun n => unionsList_mem_names svc int n,
      fun n => enumsList_mem_names svc int n⟩

/-- Witness for C2: `Widget` is reachable only from the `create` method's
parameter, so it is visited in the input closure and absent from the output
closure. -/
theorem C2_directional_partitioning_witness :
    visitedIn (inputClosure widgetService widgetInterface) "Widget" = true
    ∧ visitedIn (outputClosure widgetService widgetInterface) "Widget" = false := by
  have hnot : ¬ ReachableFromOutput widgetService widgetInterface "Widget" := by
    rintro ⟨r, hr, hre⟩
    have hroots : outputRoots widgetInterface = ["WidgetReceipt"] := rfl
    rw [hroots] at hr
    have hr' : r = "WidgetReceipt" := by simpa using hr
    subst hr'
    have heq := reach_of_no_children widgetService "WidgetReceipt" rfl "Widget" hre
    exact absurd heq (by decide)
  have h := C2_directional_partitioning.1 widgetService widgetInterface "Widget"
    ⟨"Widget", by decide, Reach.refl _⟩ hnot (by decide)
  exact ⟨h.1, h.2.1⟩
